import Mathlib

/-!
Verification of the schema-resolution / endpoint-extraction core of the
OpenAPI codegen monorepo.

Each namespace shallowly embeds one source module as executable Lean
definitions and proves the claimed properties about them.  JavaScript
strings are modelled as Lean `String`s (with explicit list-based helpers so
every definition evaluates by kernel reduction), JS `Map`/`Set` as
association lists / lists with set-semantics insertion, `undefined` as
`Option.none`, and JS truthiness is made explicit at each use site.
External libraries (the YAML/JSON parsers, `minimatch`, the JS `RegExp`
engine) are modelled as abstract function parameters, since they are not
part of this repository.
-/

namespace JsStr

/-- Models `String.prototype.trim`: drop leading and trailing whitespace. -/
def jsTrim (s : String) : String :=
  (((s.toList.dropWhile Char.isWhitespace).reverse.dropWhile Char.isWhitespace).reverse).asString

/-- Models `String.prototype.startsWith`. -/
def jsStartsWith (s p : String) : Bool :=
  p.toList.isPrefixOf s.toList

/-- Models `String.prototype.endsWith`. -/
def jsEndsWith (s p : String) : Bool :=
  p.toList.isSuffixOf s.toList

/-- Models `s.slice(0, -1)`: drop the last character. -/
def jsDropLast (s : String) : String :=
  s.toList.dropLast.asString

/-- Models `s.slice(n)`: drop the first `n` characters. -/
def jsDrop (n : Nat) (s : String) : String :=
  (s.toList.drop n).asString

/-- Models `s.substring(0, n)` / `s.take(n)`. -/
def jsTake (n : Nat) (s : String) : String :=
  (s.toList.take n).asString

/-- Models `String.prototype.toLowerCase` for the ASCII range. -/
def jsToLower (s : String) : String :=
  (s.toList.map Char.toLower).asString

/-- Splits a character list at every occurrence of `c`, keeping empty
segments, accumulating the current segment in reverse. -/
def splitCharAux (c : Char) : List Char → List Char → List (List Char)
  | [], acc => [acc.reverse]
  | x :: xs, acc =>
    if x = c then acc.reverse :: splitCharAux c xs [] else splitCharAux c xs (x :: acc)

/-- Models `String.prototype.split(sep)` for a one-character separator. -/
def jsSplitChar (c : Char) (s : String) : List String :=
  (splitCharAux c s.toList []).map List.asString

/-- Digit characters for decimal printing (agrees with `Nat.digitChar` on 0-9). -/
def decDigitChar (n : Nat) : Char :=
  Nat.digitChar n

/-- Fuel-driven decimal digit printer (most significant digit first). -/
def decDigitsAux : Nat → Nat → List Char
  | 0, _ => []
  | fuel + 1, n =>
    if n < 10 then [decDigitChar n]
    else decDigitsAux fuel (n / 10) ++ [decDigitChar (n % 10)]

/-- Models JS number-to-string conversion `\x7b${n}\x7d` for natural numbers:
decimal representation without leading zeros. -/
def decRepr (n : Nat) : String :=
  (decDigitsAux (n + 1) n).asString

end JsStr

namespace PathU

open JsStr

/-- Embeds `normalizeBasePath` from `path-utils.ts` (lines 23-41).  `none`
models an `undefined` argument or result; JS `!basePath` is true for
`undefined` and for the empty string. -/
def normalizeBasePath : Option String → Option String
  | none => none
  | some basePath =>
    if basePath = "" ∨ basePath = "/" ∨ jsTrim basePath = "" then
      none
    else
      let n0 := jsTrim basePath
      let n1 := if ¬ jsStartsWith n0 "/" then "/" ++ n0 else n0
      let n2 := if jsEndsWith n1 "/" then jsDropLast n1 else n1
      some n2

end PathU

namespace StrU

/-- The `type` field of a schema: absent, a single type string, or an
OpenAPI 3.1 type array. -/
inductive TypeField where
  | absent : TypeField
  | single : String → TypeField
  | many : List String → TypeField
deriving DecidableEq

/-- The fields of a schema node consulted by `isNullable`
(`string-utils.ts`).  `nullable` is the explicit tri-state annotation. -/
structure Schema where
  nullable : Option Bool
  type : TypeField
deriving DecidableEq

/-- Embeds `isNullable` from `string-utils.ts` (lines 83-97). -/
def isNullable (schema : Schema) (defaultNullable : Bool) : Bool :=
  match schema.nullable with
  | some true => true
  | some false => false
  | none =>
    match schema.type with
    | TypeField.many ts => ts.contains "null"
    | _ => defaultNullable

/-- Modelled from the spec: the generator's application of `defaultNullable`
(the `OpenApiGenerator` schema emitter is not under `src/`; only its tests
are).  Per the spec, the configurable default "must apply only to
nested/property schemas, never to a top-level named schema's own wrapper":
a property is wrapped using `isNullable prop defaultNullable`, while the
top-level named schema's own wrapper uses `isNullable schema false`. -/
structure NamedSchema where
  top : Schema
  properties : List (String × Schema)

/-- Modelled from the spec: nullability of one property wrapper under the
run's `defaultNullable` flag. -/
def propertyWrapperNullable (prop : Schema) (defaultNullable : Bool) : Bool :=
  isNullable prop defaultNullable

/-- Modelled from the spec: nullability of the top-level named schema's own
wrapper; the `defaultNullable` flag is never consulted here. -/
def topLevelWrapperNullable (named : NamedSchema) (_defaultNullable : Bool) : Bool :=
  isNullable named.top false

end StrU

namespace CtU

open JsStr

/-- Embeds `normalizeContentType` from `content-type-utils.ts` (lines
138-140): `contentType.split(";")[0].trim().toLowerCase()`. -/
def normalizeContentType (contentType : String) : String :=
  jsToLower (jsTrim ((jsSplitChar ';' contentType).headD ""))

/-- Inner loop of `selectContentType`: try each preferred content type in
order, returning the first available entry that normalizes to it. -/
def findPreferred (availableContentTypes : List String) :
    List String → Option String
  | [] => none
  | preferred :: rest =>
    match availableContentTypes.find?
        (fun avail => normalizeContentType avail = normalizeContentType preferred) with
    | some m => some m
    | none => findPreferred availableContentTypes rest

/-- Embeds `selectContentType` from `content-type-utils.ts` (lines 165-189). -/
def selectContentType (availableContentTypes preferredContentTypes : List String) :
    Option String :=
  if availableContentTypes.isEmpty then none
  else
    match findPreferred availableContentTypes preferredContentTypes with
    | some m => some m
    | none => availableContentTypes.head?

/-- Modelled from the spec: the callers that report a missing preferred
content type as a non-fatal generation warning are generator code not under
`src/`; the selection itself is `selectContentType`.  Returns the selected
content type together with `some warning` exactly when the fallback (no
preferred type present) was taken. -/
def selectContentTypeWithWarning (availableContentTypes preferredContentTypes : List String) :
    Option String × Option String :=
  match findPreferred availableContentTypes preferredContentTypes with
  | some m => (some m, none)
  | none =>
    (selectContentType availableContentTypes preferredContentTypes,
     some "no preferred content type matched; falling back to first available content type")

end CtU

namespace RefR

open JsStr

/-- A node that is either a `\x7b$ref: string\x7d` object or a concrete value
(`resolveRef` is generic in the concrete payload, like the TS generic `T`). -/
inductive RNode (α : Type) where
  | ref : String → RNode α
  | val : α → RNode α
deriving DecidableEq

/-- Mirrors the `hasRef` type guard of `ref-resolver.ts`. -/
def hasRef {α : Type} : RNode α → Bool
  | RNode.ref _ => true
  | RNode.val _ => false

/-- The `components` section of a spec document; each field is `none` when
the corresponding map is absent.  Components of all four kinds share the
payload type, as the TS code treats them as untyped objects. -/
structure Components (α : Type) where
  parameters : Option (List (String × RNode α)) := none
  requestBodies : Option (List (String × RNode α)) := none
  responses : Option (List (String × RNode α)) := none
  schemas : Option (List (String × RNode α)) := none

/-- Models one of the `ref.match(/^#\/components\/kind\/(.+)$/)` tests:
returns the captured name when `ref` starts with the prefix and the
remainder is non-empty. -/
def matchComponent (pre ref : String) : Option String :=
  if jsStartsWith ref pre ∧ jsDrop pre.length ref ≠ "" then some (jsDrop pre.length ref)
  else none

/-- The component lookup performed by `resolveRef` (lines 65-82): each
pointer kind is tried in order; a missing map or a missing entry leaves the
reference unresolved (`resolved` stays null). -/
def lookupRef {α : Type} (spec : Components α) (ref : String) : Option (RNode α) :=
  match matchComponent "#/components/parameters/" ref with
  | some name => (spec.parameters.getD []).lookup name
  | none =>
  match matchComponent "#/components/requestBodies/" ref with
  | some name => (spec.requestBodies.getD []).lookup name
  | none =>
  match matchComponent "#/components/responses/" ref with
  | some name => (spec.responses.getD []).lookup name
  | none =>
  match matchComponent "#/components/schemas/" ref with
  | some name => (spec.schemas.getD []).lookup name
  | none => none

/-- Embeds `resolveRef` from `ref-resolver.ts` (lines 54-97): with the depth
budget exhausted the node at hand is returned as is; a node without `$ref`
is returned unchanged; a found concrete target is returned; a found target
that is itself a reference is resolved recursively with `maxDepth - 1`; a
failed lookup returns the node unchanged. -/
def resolveRef {α : Type} (node : RNode α) (spec : Components α) : Nat → RNode α
  | 0 => node
  | d + 1 =>
    match node with
    | RNode.val _ => node
    | RNode.ref ptr =>
      match lookupRef spec ptr with
      | none => node
      | some t =>
        match t with
        | RNode.val _ => t
        | RNode.ref _ => resolveRef t spec d

/-- One resolution step: follow the reference if the lookup succeeds,
otherwise stay put. -/
def stepRef {α : Type} (spec : Components α) (n : RNode α) : RNode α :=
  match n with
  | RNode.val _ => n
  | RNode.ref ptr => (lookupRef spec ptr).getD n

/-- `d`-fold iteration of `stepRef`. -/
def stepIter {α : Type} (spec : Components α) : Nat → RNode α → RNode α
  | 0, n => n
  | d + 1, n => stepIter spec d (stepRef spec n)

/-- Payload model for parameter lists: an object with string `name` and
`in` fields (the `tag` distinguishes otherwise equal parameters), or an
object lacking them (`isResolvedParameter` fails on it). -/
inductive PVal where
  | param : String → String → Nat → PVal
  | other : Nat → PVal
deriving DecidableEq

/-- Mirrors the `isResolvedParameter` type guard (string `name` and `in`). -/
def isResolvedParameter : RNode PVal → Bool
  | RNode.val (PVal.param _ _ _) => true
  | _ => false

/-- Name of a parameter-shaped node (unused fallback for other shapes). -/
def pName : RNode PVal → String
  | RNode.val (PVal.param n _ _) => n
  | _ => ""

/-- Location (`in`) of a parameter-shaped node. -/
def pIn : RNode PVal → String
  | RNode.val (PVal.param _ i _) => i
  | _ => ""

/-- Embeds `resolveParameterRef`: `resolveRef` at the default depth 10. -/
def resolveParameterRef (p : RNode PVal) (spec : Components PVal) : RNode PVal :=
  resolveRef p spec 10

/-- Embeds `mergeParameters` from `ref-resolver.ts` (lines 139-168):
resolve both lists, start from the path-level list, then for each
parameter-shaped operation entry replace the first merged entry with the
same `(name, in)` key or append it. -/
def mergeParameters (pathParams operationParams : Option (List (RNode PVal)))
    (spec : Components PVal) : List (RNode PVal) :=
  let resolvedPathParams := (pathParams.getD []).map (fun p => resolveParameterRef p spec)
  let resolvedOperationParams := (operationParams.getD []).map (fun p => resolveParameterRef p spec)
  resolvedOperationParams.foldl
    (fun merged opParam =>
      if isResolvedParameter opParam then
        match merged.findIdx?
            (fun p => isResolvedParameter p ∧ pName p = pName opParam ∧ pIn p = pIn opParam) with
        | some existingIndex => merged.set existingIndex opParam
        | none => merged ++ [opParam]
      else merged)
    resolvedPathParams

/-- The merge described by the claim: every path-level entry is kept in
place (replaced by the operation-level parameter with the same
`(name, in)` key when one exists), and operation-level parameters whose
key matches no path-level parameter are appended in declaration order. -/
def claimMerge (pathParams operationParams : Option (List (RNode PVal)))
    (spec : Components PVal) : List (RNode PVal) :=
  let rp := (pathParams.getD []).map (fun p => resolveParameterRef p spec)
  let ro := (operationParams.getD []).map (fun p => resolveParameterRef p spec)
  rp.map (fun p =>
      if isResolvedParameter p then
        match ro.find?
            (fun o => isResolvedParameter o ∧ pName o = pName p ∧ pIn o = pIn p) with
        | some o => o
        | none => p
      else p) ++
    ro.filter (fun o =>
      isResolvedParameter o ∧
        ¬ rp.any (fun p => isResolvedParameter p ∧ pName p = pName o ∧ pIn p = pIn o))

end RefR

namespace SpecP

/-- A primitive JSON/YAML scalar, with JS truthiness made explicit. -/
inductive JsVal where
  | str : String → JsVal
  | num : Int → JsVal
  | boolean : Bool → JsVal
  | null : JsVal
deriving DecidableEq

/-- JS truthiness of a scalar: `""`, `0`, `false` and `null` are falsy. -/
def truthy : JsVal → Bool
  | JsVal.str s => s ≠ ""
  | JsVal.num n => n ≠ 0
  | JsVal.boolean b => b
  | JsVal.null => false

/-- The top-level fields of a parsed document consulted by the validator;
`none` models an absent field. -/
structure Doc where
  openapi : Option JsVal := none
  swagger : Option JsVal := none
deriving DecidableEq

/-- Mirrors `SpecValidationError(message, \x7bfilePath\x7d)`. -/
structure SpecValidationError where
  message : String
  filePath : String
deriving DecidableEq

/-- Mirrors `hasSwagger`: the `swagger` field exists and is a string. -/
def hasSwaggerString (spec : Doc) : Bool :=
  match spec.swagger with
  | some (JsVal.str _) => true
  | _ => false

/-- Mirrors `!spec.openapi`: the `openapi` field is absent or falsy. -/
def openapiTruthy (spec : Doc) : Bool :=
  match spec.openapi with
  | some v => truthy v
  | none => false

/-- The validation message (spec-parser.ts line 89). -/
def invalidSpecMessage (sourcePath : String) : String :=
  "Invalid OpenAPI specification: missing \x27openapi\x27 or \x27swagger\x27 field in " ++ sourcePath

/-- The parse-failure message (spec-parser.ts lines 62-70). -/
def parseFailureMessage (sourcePath yamlErrorMessage : String) : String :=
  "Failed to parse OpenAPI specification from: " ++ sourcePath ++
    "\n\nError: " ++ yamlErrorMessage ++
    "\n\nPlease ensure:\n  - The file contains valid YAML or JSON syntax\n  - The file is a valid OpenAPI 3.x specification"

/-- The validation step of `parseOpenAPISpecFromString` (lines 80-95). -/
def validateSpec (spec : Doc) (sourcePath : String) (validate : Bool) :
    Except SpecValidationError Doc :=
  if validate ∧ ¬ openapiTruthy spec ∧ ¬ hasSwaggerString spec then
    Except.error ⟨invalidSpecMessage sourcePath, sourcePath⟩
  else
    Except.ok spec

/-- Embeds `parseOpenAPISpecFromString` from `spec-parser.ts` (lines 41-96).
The external YAML and JSON parsers are abstract parameters; an
`Except.error` models a thrown parse exception (carrying its message). -/
def parseOpenAPISpecFromString (yamlParse jsonParse : String → Except String Doc)
    (content sourcePath : String) (validate : Bool) : Except SpecValidationError Doc :=
  match yamlParse content with
  | Except.ok spec => validateSpec spec sourcePath validate
  | Except.error yamlError =>
    match jsonParse content with
    | Except.ok spec => validateSpec spec sourcePath validate
    | Except.error _ =>
      Except.error ⟨parseFailureMessage sourcePath yamlError, sourcePath⟩

end SpecP

namespace PatU

open JsStr

/-- Normalizes the `ensureLeadingChar` argument: JS treats an empty string
as falsy, i.e. as if the argument were absent. -/
def ensureArg : Option String → Option String
  | some c => if c = "" then none else some c
  | none => none

/-- The separator-reinsertion step shared by all branches of both
`stripPrefix` implementations (for a truthy `ensureLeadingChar`). -/
def ensureLeading (ch stripped : String) : String :=
  if stripped = "" then ch
  else if ¬ jsStartsWith stripped ch then ch ++ stripped
  else stripped

/-- The `longestMatch` loop of the glob-based `stripPrefix`
(`pattern-utils`, glob variant, lines 353-361): test every prefix length
from 1 to `input.length` against the matcher and keep the last (hence
greatest) matching length.  The matcher `m` models
`fun testPrefix => minimatch testPrefix pattern` for the fixed pattern. -/
def longestMatch (m : String → Bool) (input : String) : Option Nat :=
  (List.range' 1 input.length).foldl
    (fun acc i => if m (jsTake i input) then some i else acc) none

/-- Embeds the glob-pattern branch of `stripPrefix` (glob variant, lines
349-382), parametric in the `minimatch` matcher. -/
def stripPrefixGlob (m : String → Bool) (input : String) (ensureLeadingChar : Option String) :
    String :=
  match longestMatch m input with
  | some i =>
    let stripped := jsDrop i input
    match ensureArg ensureLeadingChar with
    | some ch => ensureLeading ch stripped
    | none => if stripped = "" then input else stripped
  | none => input

/-- Embeds the literal-string branch of `stripPrefix` (both variants): a
plain prefix check. -/
def stripPrefixLit (pat input : String) (ensureLeadingChar : Option String) : String :=
  if jsStartsWith input pat then
    let stripped := jsDrop pat.length input
    match ensureArg ensureLeadingChar with
    | some ch => ensureLeading ch stripped
    | none => stripped
  else input

/-- Embeds the regex branch of the regex-based `stripPrefix`
(`pattern-utils` regex variant, unnamed source, lines 100-120), parametric
in the JS regex engine: `rmatch input` models `input.match(regex)`,
returning the match index and matched substring of the engine's first
match, or `none`. -/
def stripPrefixRegex (rmatch : String → Option (Nat × String)) (input : String)
    (ensureLeadingChar : Option String) : String :=
  match rmatch input with
  | some (idx, matched) =>
    if idx = 0 then
      let stripped := jsDrop matched.length input
      match ensureArg ensureLeadingChar with
      | some ch => ensureLeading ch stripped
      | none => stripped
    else input
  | none => input

/-- The behaviour asserted by the claim for a pattern (non-literal)
specification: strip the longest prefix of the input that fully matches
the pattern (considering all candidate prefixes), then reinsert the
requested leading separator (the separator alone for an empty remainder);
with no match the input is returned unchanged. -/
def claimStrip (fullMatch : String → Bool) (input : String)
    (ensureLeadingChar : Option String) : String :=
  match longestMatch fullMatch input with
  | some i =>
    let stripped := jsDrop i input
    match ensureLeadingChar with
    | some ch => ensureLeading ch stripped
    | none => stripped
  | none => input

end PatU

namespace EndX

open JsStr

/-- Schema `type` values of `OpenAPISchemaLike` (`schema-utils`). -/
inductive STy where
  | str | number | integer | boolean | array | object | nullT
deriving DecidableEq

/-- The fields of `OpenAPISchemaLike` used by `schemaToTypeString`:
`$ref`, `type`, `enum`, `items` and `additionalProperties` (a schema or a
boolean).  `none` models an absent field. -/
inductive SchemaLike where
  | mk : Option String → Option STy → Option (List String) → Option SchemaLike →
      Option (SchemaLike ⊕ Bool) → SchemaLike

/-- Embeds `schemaToTypeString` (`schema-utils`, lines 115-146) on a
present schema. -/
def schemaTypeStr : SchemaLike → String
  | SchemaLike.mk ref ty enumVals items addProps =>
    let refStr := match ref with | some r => r | none => ""
    if refStr ≠ "" then ((jsSplitChar '/' refStr).getLastD "")
    else
      match ty with
      | some STy.integer => "number"
      | some STy.number => "number"
      | some STy.boolean => "boolean"
      | some STy.str =>
        match enumVals with
        | some l => String.intercalate " | " (l.map (fun v => "\"" ++ v ++ "\""))
        | none => "string"
      | some STy.array =>
        (match items with
         | some s2 => schemaTypeStr s2
         | none => "unknown") ++ "[]"
      | some STy.object =>
        match addProps with
        | some (Sum.inl s2) => "Record<string, " ++ schemaTypeStr s2 ++ ">"
        | _ => "Record<string, unknown>"
      | some STy.nullT => "unknown"
      | none => "unknown"

/-- Embeds `schemaToTypeString` including the `undefined` guard. -/
def schemaToTypeString : Option SchemaLike → String
  | none => "unknown"
  | some s => schemaTypeStr s

/-- A media-type entry: `\x7bschema?: OpenAPISchemaLike\x7d`. -/
structure Media where
  schema : Option SchemaLike := none

/-- A resolved response object: `content` is `none` when the field is
absent (then the `isResolvedResponse` guard fails). -/
structure Resp where
  content : Option (List (String × Media)) := none

/-- A response map entry: a `$ref` node or a response object. -/
abbrev RespNode := RefR.RNode Resp

/-- Mirrors `isResolvedResponse(resolved) && resolved.content` combined
(`"content" in value` and JS truthiness of the field, under which the
empty object `\x7b\x7d` is truthy): yields the content map when the guard
passes. -/
def contentOf : RespNode → Option (List (String × Media))
  | RefR.RNode.val r => r.content
  | RefR.RNode.ref _ => none

/-- Models `parseInt(s, 10)` restricted to strings with a leading digit
run (`none` models `NaN`). -/
def jsParseInt : String → Option Int := fun s =>
  let ds := s.toList.takeWhile Char.isDigit
  if ds.isEmpty then none
  else some (Int.ofNat (ds.foldl (fun a c => a * 10 + (c.toNat - 48)) 0))

/-- The state threaded through the success-response loop of
`extractEndpoints` (lines 361-362): `successResponseType` and
`successStatusCode`. -/
structure ScanState where
  srt : Option String := none
  ssc : Option Int := none
deriving DecidableEq

/-- Embeds the success-response loop of `extractEndpoints` (endpoint
extraction utilities, lines 363-389): iterate the responses map in order,
skip non-`2xx` status codes, track the status code when enabled, and stop
("break") at the first entry yielding a schema type, or, when tracking is
enabled, at the first content-less entry ("void"). -/
def scanResponses (spec : RefR.Components Resp) (preferred : List String) (track : Bool) :
    List (String × RespNode) → ScanState → ScanState
  | [], st => st
  | (statusCode, responseRef) :: rest, st =>
    if ¬ jsStartsWith statusCode "2" then scanResponses spec preferred track rest st
    else
      let st1 := if track then { st with ssc := jsParseInt statusCode } else st
      let resolved := RefR.resolveRef responseRef spec 10
      match contentOf resolved with
      | some contentMap =>
        match CtU.selectContentType (contentMap.map Prod.fst) preferred with
        | some contentType =>
          match contentMap.lookup contentType with
          | some mediaType =>
            match mediaType.schema with
            | some sch => { st1 with srt := some (schemaTypeStr sch) }
            | none => scanResponses spec preferred track rest st1
          | none => scanResponses spec preferred track rest st1
        | none => scanResponses spec preferred track rest st1
      | none =>
        if track then { st1 with srt := some "void" }
        else scanResponses spec preferred track rest st1

/-- Top-level wrapper: `operation.responses` may be absent (or the truthy
empty map, which scans zero entries). -/
def extractSuccessResponse (spec : RefR.Components Resp) (preferred : List String)
    (track : Bool) (responses : Option (List (String × RespNode))) : ScanState :=
  match responses with
  | none => {}
  | some rs => scanResponses spec preferred track rs {}

/-- What one 2xx entry contributes if the loop stops at it: the type
string of its selected media type's schema, or `"void"` for an entry
failing the content guard when status tracking is enabled. -/
def entryTrigger (spec : RefR.Components Resp) (preferred : List String) (track : Bool)
    (entry : String × RespNode) : Option String :=
  let resolved := RefR.resolveRef entry.2 spec 10
  match contentOf resolved with
  | some contentMap =>
    match CtU.selectContentType (contentMap.map Prod.fst) preferred with
    | some contentType =>
      match contentMap.lookup contentType with
      | some mediaType => mediaType.schema.map schemaTypeStr
      | none => none
    | none => none
  | none => if track then some "void" else none

/-- The success response as the (amended) claim describes it: restrict to
`2xx` entries; the first entry with a trigger determines the type and (when
tracking) the status code; with no triggering entry the type is absent and
the tracked status code is the last `2xx` entry's code. -/
def scanSpecified (spec : RefR.Components Resp) (preferred : List String) (track : Bool)
    (responses : List (String × RespNode)) : ScanState :=
  let twoxx := responses.filter (fun e => jsStartsWith e.1 "2")
  match twoxx.find? (fun e => (entryTrigger spec preferred track e).isSome) with
  | some e =>
    { srt := entryTrigger spec preferred track e
      ssc := if track then jsParseInt e.1 else none }
  | none =>
    { srt := none
      ssc :=
        if track then
          match twoxx.getLast? with
          | some e => jsParseInt e.1
          | none => none
        else none }

end EndX

namespace EnumU

open JsStr

/-- PascalCase one word as `enum-utils.ts` line 62 does: uppercase the
first character, lowercase the rest. -/
def capWord : List Char → List Char
  | [] => []
  | c :: cs => c.toUpper :: cs.map Char.toLower

/-- The PascalCase pipeline of `stringToEnumMember` (lines 56-63): replace
every non-alphanumeric character by a space, split on whitespace runs,
drop empty words, capitalize each word, and join. -/
def pascalize (s : String) : String :=
  let spaced := s.toList.map (fun c => if c.isAlphanum then c else ' ')
  let words := (splitCharAux ' ' spaced []).filter (fun w => ¬ w.isEmpty)
  (words.map capWord).foldl (fun acc w => acc ++ w) [] |>.asString

/-- The identifier `stringToEnumMember` computes before deduplication
(lines 32-76): sign handling, PascalCase, leading-digit and empty-result
fixups, sort-order suffix. -/
def baseEnumKey (value : String) : String :=
  if value = "" then "Empty"
  else
    let suffix := if jsStartsWith value "-" then "Desc"
      else if jsStartsWith value "+" then "Asc" else ""
    let processValue := if jsStartsWith value "-" ∨ jsStartsWith value "+" then jsDrop 1 value
      else value
    if processValue = "" then (if suffix = "" then "Empty" else suffix)
    else
      let result := pascalize processValue
      let result :=
        if (result.toList.head?.elim false Char.isDigit) then "Value" ++ result else result
      let result := if result = "" then "Value" else result
      result ++ suffix

/-- The collision loop of `registerKey` (lines 141-144): try
`key ++ toString counter` for `counter = 2, 3, ...` until the candidate is
unused.  `fuel` bounds the loop; `registerKey` supplies enough fuel for
the loop to reach a free candidate. -/
def registerKeyLoop (key : String) (used : List String) : Nat → Nat → String
  | 0, counter => key ++ decRepr counter
  | fuel + 1, counter =>
    let cand := key ++ decRepr counter
    if cand ∈ used then registerKeyLoop key used fuel (counter + 1) else cand

/-- Embeds `registerKey` (lines 133-148) with a (present) `usedKeys` set:
returns the unique key and the set extended with it. -/
def registerKey (key : String) (used : List String) : String × List String :=
  let uniqueKey :=
    if key ∈ used then registerKeyLoop key used (used.length + 1) 2 else key
  (uniqueKey, used ++ [uniqueKey])

/-- Embeds `stringToEnumMember` (lines 32-79) with a shared `usedKeys`
set, threading the set explicitly. -/
def stringToEnumMember (value : String) (used : List String) : String × List String :=
  registerKey (baseEnumKey value) used

/-- Converts a sequence of enum literal values with one shared `usedKeys`
set, as one enum-generation pass does. -/
def processEnumValues : List String → List String → List String × List String
  | [], used => ([], used)
  | v :: vs, used =>
    let (out, used1) := stringToEnumMember v used
    let (outs, used2) := processEnumValues vs used1
    (out :: outs, used2)

end EnumU

namespace CondV

open JsStr

/-- A value of the legacy `dependencies` keyword: an array of property
names or a schema object. -/
inductive JsDep where
  | arrD : List String → JsDep
  | schemaD : JsDep
deriving DecidableEq

/-- The fields of a schema consulted by `validateDependencyGraph`
(`conditional-validator.ts`, lines 356-439). -/
structure CSchema where
  dependentRequired : Option (List (String × List String)) := none
  dependencies : Option (List (String × JsDep)) := none

/-- The dependency graph: a JS `Map` from property name to an
insertion-ordered `Set` of property names, as an association list with a
deduplicated value list. -/
abbrev Graph := List (String × List String)

/-- JS `Set.add`: append the element unless already present. -/
def setAdd (l : List String) (x : String) : List String :=
  if x ∈ l then l else l ++ [x]

/-- Replace the value of the (unique) entry with key `k`. -/
def mapUpdate (g : Graph) (k : String) (f : List String → List String) : Graph :=
  match g with
  | [] => []
  | (k1, v) :: rest => if k1 = k then (k1, f v) :: rest else (k1, v) :: mapUpdate rest k f

/-- Mirrors `if (!graph.has(prop)) graph.set(prop, new Set())`. -/
def ensureKey (g : Graph) (k : String) : Graph :=
  if (g.lookup k).isSome then g else g ++ [(k, [])]

/-- Add all of `ds` to the dependency set of `k` (lines 371-381 for
`dependentRequired`, 386-398 for array-form `dependencies`). -/
def addDeps (g : Graph) (k : String) (ds : List String) : Graph :=
  ds.foldl (fun g1 d => mapUpdate g1 k (fun s => setAdd s d)) (ensureKey g k)

/-- Builds the dependency graph from the two keyword maps, in the source's
insertion order (`dependentRequired` first, then array-form
`dependencies`; schema-form dependencies contribute no edges). -/
def buildGraph (dR : List (String × List String)) (deps : List (String × JsDep)) : Graph :=
  let g := dR.foldl (fun g1 e => addDeps g1 e.1 e.2) []
  deps.foldl
    (fun g1 e =>
      match e.2 with
      | JsDep.arrD ds => addDeps g1 e.1 ds
      | JsDep.schemaD => g1)
    g

/-- Mirrors `graph.get(prop) || new Set()`. -/
def graphGet (g : Graph) (k : String) : List String :=
  (g.lookup k).getD []

/-- All nodes mentioned by the graph: every key and every dependency. -/
def nodesOf (g : Graph) : List String :=
  g.foldr (fun e acc => e.1 :: e.2 ++ acc) []

/-- The mutable state of the DFS in `validateDependencyGraph` (lines
402-404 and 360): `visited`, `recStack` (both JS `Set`s), `path` and the
collected error messages. -/
structure St where
  visited : List String := []
  recStack : List String := []
  path : List String := []
  errors : List String := []
deriving DecidableEq

/-- The cycle error message (line 421). -/
def cycleError (schemaName : String) (cycle : List String) : String :=
  "Circular dependency detected in schema \x27" ++ schemaName ++ "\x27: " ++
    String.intercalate " -> " cycle

/-- The `for (const dep of deps)` loop of `detectCycle` (lines 412-424):
recurse (through the supplied `detect` continuation) into unvisited
dependencies, report a cycle when a dependency is still on the recursion
stack, and propagate an inner `true` immediately. -/
def goDeps (g : Graph) (detect : String → St → Bool × St) (name : String) :
    List String → St → Bool × St
  | [], s => (false, s)
  | dep :: rest, s =>
    if dep ∉ s.visited then
      match detect dep s with
      | (true, s2) => (true, s2)
      | (false, s2) => goDeps g detect name rest s2
    else if dep ∈ s.recStack then
      let cycleStart := s.path.indexOf dep
      let cycle := s.path.drop cycleStart ++ [dep]
      (true, { s with errors := s.errors ++ [cycleError name cycle] })
    else goDeps g detect name rest s

/-- Embeds `detectCycle` (lines 406-429): mark the node visited, push it on
the recursion stack and path, process its dependencies, and on normal
completion pop the node again.  `fuel` bounds the recursion depth;
`validateDependencyGraph` supplies enough for the fuel branch to be
unreachable. -/
def detectCycle (g : Graph) (name : String) : Nat → String → St → Bool × St
  | 0, _, s => (false, s)
  | fuel + 1, prop, s =>
    let s1 : St :=
      { visited := setAdd s.visited prop
        recStack := setAdd s.recStack prop
        path := s.path ++ [prop]
        errors := s.errors }
    match goDeps g (fun d s2 => detectCycle g name fuel d s2) name (graphGet g prop) s1 with
    | (true, s2) => (true, s2)
    | (false, s2) =>
      (false, { s2 with recStack := s2.recStack.erase prop, path := s2.path.dropLast })

/-- Embeds the root loop (lines 432-436): start a DFS from every not yet
visited key of the graph, in insertion order, ignoring the returned flag. -/
def rootsLoop (g : Graph) (name : String) (fuel : Nat) :
    List (String × List String) → St → St
  | [], s => s
  | (k, _) :: rest, s =>
    if k ∉ s.visited then rootsLoop g name fuel rest (detectCycle g name fuel k s).2
    else rootsLoop g name fuel rest s

/-- The result record of `validateDependencyGraph`. -/
structure VResult where
  valid : Bool
  errors : List String
deriving DecidableEq

/-- Embeds `validateDependencyGraph` (lines 356-439). -/
def validateDependencyGraph (schema : CSchema) (schemaName : String) : VResult :=
  if schema.dependencies.isNone ∧ schema.dependentRequired.isNone then ⟨true, []⟩
  else
    let g := buildGraph (schema.dependentRequired.getD []) (schema.dependencies.getD [])
    let fuel := (nodesOf g).length + 1
    let sF := rootsLoop g schemaName fuel g {}
    ⟨sF.errors.isEmpty, sF.errors⟩

/-- The dependency graph a schema declares. -/
def graphOf (schema : CSchema) : Graph :=
  buildGraph (schema.dependentRequired.getD []) (schema.dependencies.getD [])

/-- Edge relation of the built graph. -/
def isEdge (g : Graph) (u v : String) : Prop :=
  v ∈ graphGet g u

/-- A walk along graph edges: `pathOk g u l` states that the consecutive
elements of `u :: l` are all edges. -/
def pathOk (g : Graph) : String → List String → Prop
  | _, [] => True
  | u, v :: l => isEdge g u v ∧ pathOk g v l

/-- A concrete cycle: a non-trivial walk from `v` back to `v`. -/
def IsCycleList (g : Graph) (v : String) (l : List String) : Prop :=
  pathOk g v (l ++ [v])

/-- The graph has a cycle: some node reaches itself in at least one step. -/
def Cyclic (g : Graph) : Prop :=
  ∃ v, Relation.TransGen (fun a b => isEdge g a b) v v

end CondV

namespace EnumU

/-- The PascalCase result after the leading-digit and empty-result fixups
(`enum-utils.ts` lines 66-73), before the sort suffix is appended. -/
def pascalFixed (s : String) : String :=
  let r := pascalize s
  let r := if (r.toList.head?.elim false Char.isDigit) then "Value" ++ r else r
  if r = "" then "Value" else r

end EnumU

namespace JsStr

/-- Numeric value of a decimal digit string (folding from the left). -/
def valOfDigits (l : List Char) : Nat :=
  l.foldl (fun a c => a * 10 + (c.toNat - 48)) 0

end JsStr

namespace RefR

/-- The `(name, in)` identity key of a node. -/
def pKeyOf (x : RNode PVal) : String × String :=
  (pName x, pIn x)

/-- The parameter-shaped entries of a list carry pairwise distinct
`(name, in)` identity keys. -/
def NodupKeys (l : List (RNode PVal)) : Prop :=
  ((l.filter (fun x => isResolvedParameter x)).map pKeyOf).Nodup

/-- The substitution applied by `claimMerge` to one path-level entry. -/
def substBy (ro : List (RNode PVal)) (p : RNode PVal) : RNode PVal :=
  if isResolvedParameter p then
    match ro.find? (fun o => isResolvedParameter o ∧ pName o = pName p ∧ pIn o = pIn p) with
    | some o => o
    | none => p
  else p

/-- The append predicate of `claimMerge`: an operation entry is appended
when it is parameter-shaped and no path entry shares its key. -/
def appendPred (rp : List (RNode PVal)) (o : RNode PVal) : Bool :=
  isResolvedParameter o ∧
    ¬ rp.any (fun p => isResolvedParameter p ∧ pName p = pName o ∧ pIn p = pIn o)

/-- One step of the `mergeParameters` fold. -/
def mergeStep (merged : List (RNode PVal)) (opParam : RNode PVal) : List (RNode PVal) :=
  if isResolvedParameter opParam then
    match merged.findIdx?
        (fun p => isResolvedParameter p ∧ pName p = pName opParam ∧ pIn p = pIn opParam) with
    | some existingIndex => merged.set existingIndex opParam
    | none => merged ++ [opParam]
  else merged

end RefR

namespace CondV

/-- A walk with a designated head: the consecutive elements of the list
are edges (a one-element list is trivially a walk). -/
def chainList (g : Graph) : List String → Prop
  | [] => True
  | u :: l => pathOk g u l

/-- A safe node: no cycle is reachable from it. -/
def Safe (g : Graph) (v : String) : Prop :=
  ¬ ∃ w, Relation.ReflTransGen (fun a b => isEdge g a b) v w ∧
      Relation.TransGen (fun a b => isEdge g a b) w w

/-- The DFS state invariant that holds before any error is recorded: no
errors, the recursion stack equals the path (in order), the path is a
walk of visited nodes, all visited nodes are graph nodes, and every
visited node off the path is safe. -/
def Coherent (g : Graph) (s : St) : Prop :=
  s.errors = [] ∧ s.recStack = s.path ∧ chainList g s.path ∧
  (∀ v ∈ s.path, v ∈ s.visited) ∧
  (∀ v ∈ s.visited, v ∈ nodesOf g) ∧
  (∀ v ∈ s.visited, v ∉ s.path → Safe g v)

/-- Nodes of `g` not yet visited in `s`. -/
def remaining (g : Graph) (s : St) : Nat :=
  ((nodesOf g).filter (fun x => x ∉ s.visited)).length

end CondV

/-! ### Theorems -/

/-- C10: the claimed normalization contract fails on the code: the code's
own doc comment promises idempotence, a leading slash and no trailing
slash, but `normalizeBasePath "/a//"` evaluates to `"/a/"`, which still
ends in a slash, and a second application gives the different value
`"/a"`; so one application differs from two. -/
theorem normalizeBasePath_c10_bug :
    PathU.normalizeBasePath (some "/a//") = some "/a/" ∧
    PathU.normalizeBasePath (PathU.normalizeBasePath (some "/a//")) = some "/a" ∧
    PathU.normalizeBasePath (PathU.normalizeBasePath (some "/a//")) ≠
      PathU.normalizeBasePath (some "/a//") ∧
    JsStr.jsEndsWith "/a/" "/" = true := by
  refine ⟨by decide, by decide, by decide, by decide⟩

/-- C3: nullability resolution: explicit `nullable: true` wins, explicit
`nullable: false` wins over any `defaultNullable`, an (unannotated) type
array decides by containing `"null"`, an unannotated schema takes
`defaultNullable`, and the top-level named schema's wrapper (modelled from
the spec) never consults `defaultNullable` while property wrappers do. -/
theorem isNullable_c3 (s : StrU.Schema) (d : Bool) :
    (s.nullable = some true → StrU.isNullable s d = true) ∧
    (s.nullable = some false → StrU.isNullable s d = false) ∧
    (∀ ts, s.nullable = none → s.type = StrU.TypeField.many ts →
      (StrU.isNullable s d = true ↔ "null" ∈ ts)) ∧
    (s.nullable = none → (∀ ts, s.type ≠ StrU.TypeField.many ts) →
      StrU.isNullable s d = d) ∧
    (∀ named : StrU.NamedSchema,
      StrU.topLevelWrapperNullable named d = StrU.topLevelWrapperNullable named false ∧
      StrU.topLevelWrapperNullable named d = StrU.isNullable named.top false) ∧
    (∀ p : StrU.Schema, StrU.propertyWrapperNullable p d = StrU.isNullable p d) := by
  obtain ⟨nb, ty⟩ := s
  refine ⟨?_, ?_, ?_, ?_, ?_, ?_⟩
  · rintro rfl; rfl
  · rintro rfl; rfl
  · rintro ts rfl rfl
    simp [StrU.isNullable]
  · rintro rfl hne
    cases ty with
    | absent => rfl
    | single t => rfl
    | many ts => exact absurd rfl (hne ts)
  · intro named
    exact ⟨rfl, rfl⟩
  · intro p; rfl

/-- Witness for C3 at concrete schemas: explicit `nullable: false` under
`defaultNullable = true` is not nullable, and an unannotated schema under
`defaultNullable = true` is nullable. -/
theorem isNullable_c3_w :
    StrU.isNullable ⟨some false, StrU.TypeField.absent⟩ true = false ∧
    StrU.isNullable ⟨none, StrU.TypeField.absent⟩ true = true := by
  refine ⟨(isNullable_c3 ⟨some false, StrU.TypeField.absent⟩ true).2.1 rfl, ?_⟩
  exact (isNullable_c3 ⟨none, StrU.TypeField.absent⟩ true).2.2.2.1 rfl
    (fun ts h => nomatch h)

/-- Characterization of the preference loop: it returns the first
available entry matching the first preferred type that has any match. -/
theorem findPreferred_eq (avail pref : List String) :
    CtU.findPreferred avail pref =
      (pref.find? (fun p => avail.any (fun a =>
          CtU.normalizeContentType a = CtU.normalizeContentType p))).bind
        (fun p => avail.find? (fun a =>
          CtU.normalizeContentType a = CtU.normalizeContentType p)) := by
  induction pref with
  | nil => rfl
  | cons p ps ih =>
    show (match avail.find? (fun a =>
        CtU.normalizeContentType a = CtU.normalizeContentType p) with
      | some m => some m
      | none => CtU.findPreferred avail ps) = _
    rcases h : avail.find? (fun a =>
        CtU.normalizeContentType a = CtU.normalizeContentType p) with _ | m
    · have hany : avail.any (fun a =>
          CtU.normalizeContentType a = CtU.normalizeContentType p) = false := by
        rw [List.any_eq_false]
        intro a ha
        have := List.find?_eq_none.mp h a ha
        simpa using this
      simp [List.find?_cons, hany, ih]
    · have hsome : (avail.find? (fun a =>
          CtU.normalizeContentType a = CtU.normalizeContentType p)).isSome = true := by
        rw [h]; rfl
      have hany : avail.any (fun a =>
          CtU.normalizeContentType a = CtU.normalizeContentType p) = true := by
        rw [List.any_eq_true]
        obtain ⟨x, hx, hpx⟩ := List.find?_isSome.mp hsome
        exact ⟨x, hx, hpx⟩
      simp [List.find?_cons, hany, h]

/-- C6: body typing picks the first preferred content type (preference
order, matched case-insensitively ignoring parameters) present among the
available types; when none is present it falls back to the first
available content type instead of failing, and (modelled from the spec,
since the warning-reporting callers are generator code outside `src/`)
exactly that fallback is reported as a non-fatal warning. -/
theorem selectContentType_c6 (avail pref : List String) (hne : avail ≠ []) :
    (∀ p, pref.find? (fun p1 => avail.any (fun a =>
        CtU.normalizeContentType a = CtU.normalizeContentType p1)) = some p →
      CtU.selectContentType avail pref =
        avail.find? (fun a => CtU.normalizeContentType a = CtU.normalizeContentType p) ∧
      (CtU.selectContentTypeWithWarning avail pref).2 = none) ∧
    (pref.find? (fun p1 => avail.any (fun a =>
        CtU.normalizeContentType a = CtU.normalizeContentType p1)) = none →
      CtU.selectContentType avail pref = avail.head? ∧
      ∃ w, (CtU.selectContentTypeWithWarning avail pref).2 = some w) ∧
    (∃ r, CtU.selectContentType avail pref = some r) ∧
    (CtU.selectContentTypeWithWarning avail pref).1 = CtU.selectContentType avail pref := by
  have hemp : avail.isEmpty = false := by
    cases avail with
    | nil => exact absurd rfl hne
    | cons a l => rfl
  refine ⟨?_, ?_, ?_, ?_⟩
  · intro p hp
    have hfind := findPreferred_eq avail pref
    rw [hp] at hfind
    simp only [Option.some_bind] at hfind
    have hsome : ∃ m, avail.find? (fun a =>
        CtU.normalizeContentType a = CtU.normalizeContentType p) = some m := by
      have hany := List.find?_some hp
      rcases List.any_eq_true.mp hany with ⟨x, hx, hpx⟩
      rcases h2 : avail.find? (fun a =>
          CtU.normalizeContentType a = CtU.normalizeContentType p) with _ | m
      · exact absurd (List.find?_eq_none.mp h2 x hx) (by simpa using hpx)
      · exact ⟨m, rfl⟩
    obtain ⟨m, hm⟩ := hsome
    rw [hm] at hfind
    constructor
    · show CtU.selectContentType avail pref = _
      unfold CtU.selectContentType
      rw [hemp, hfind, hm]
      simp
    · show (CtU.selectContentTypeWithWarning avail pref).2 = none
      unfold CtU.selectContentTypeWithWarning
      rw [hfind]
  · intro hp
    have hfind := findPreferred_eq avail pref
    rw [hp] at hfind
    simp only [Option.none_bind] at hfind
    constructor
    · unfold CtU.selectContentType
      rw [hemp, hfind]
      simp
    · unfold CtU.selectContentTypeWithWarning
      rw [hfind]
      exact ⟨_, rfl⟩
  · unfold CtU.selectContentType
    rw [hemp]
    simp only [Bool.false_eq_true, if_false]
    rcases h : CtU.findPreferred avail pref with _ | m
    · cases avail with
      | nil => exact absurd rfl hne
      | cons a l => exact ⟨a, rfl⟩
    · exact ⟨m, rfl⟩
  · unfold CtU.selectContentTypeWithWarning CtU.selectContentType
    rw [hemp]
    rcases h : CtU.findPreferred avail pref with _ | m <;> simp

/-- Witness for C6 at the spec's own example: a media map with only
`application/xml` and preference `["application/json"]` falls back to the
xml entry and produces a warning. -/
theorem selectContentType_c6_w :
    CtU.selectContentType ["application/xml"] ["application/json"] =
      some "application/xml" ∧
    (∃ w, (CtU.selectContentTypeWithWarning ["application/xml"] ["application/json"]).2 =
      some w) := by
  have h := selectContentType_c6 ["application/xml"] ["application/json"] (by decide)
  have h2 := h.2.1 (by decide)
  exact ⟨h2.1.trans (by decide), h2.2⟩

/-- A node fixed by one resolution step is fixed by any iteration. -/
theorem stepIter_fixed {α : Type} (spec : RefR.Components α) (n : RefR.RNode α)
    (h : RefR.stepRef spec n = n) : ∀ d, RefR.stepIter spec d n = n := by
  intro d
  induction d with
  | zero => rfl
  | succ d ih =>
    show RefR.stepIter spec d (RefR.stepRef spec n) = n
    rw [h]
    exact ih

/-- Concrete values are fixed points of the resolution step. -/
theorem stepRef_val {α : Type} (spec : RefR.Components α) (a : α) :
    RefR.stepRef spec (RefR.RNode.val a) = RefR.RNode.val a := rfl

/-- `resolveRef` is exactly `maxDepth`-bounded iteration of single
resolution steps: it returns the node reached after following the
reference chain until a concrete node, a failed lookup, or the exhausted
depth budget. -/
theorem resolveRef_eq_stepIter {α : Type} (spec : RefR.Components α) :
    ∀ (d : Nat) (node : RefR.RNode α),
      RefR.resolveRef node spec d = RefR.stepIter spec d node := by
  intro d
  induction d with
  | zero => intro node; rfl
  | succ d ih =>
    intro node
    cases node with
    | val a =>
      show RefR.RNode.val a = RefR.stepIter spec (d + 1) (RefR.RNode.val a)
      rw [show RefR.stepIter spec (d + 1) (RefR.RNode.val a)
            = RefR.stepIter spec d (RefR.stepRef spec (RefR.RNode.val a)) from rfl,
          stepRef_val, stepIter_fixed spec _ (stepRef_val spec a)]
    | ref ptr =>
      show (match RefR.lookupRef spec ptr with
        | none => RefR.RNode.ref ptr
        | some t =>
          match t with
          | RefR.RNode.val _ => t
          | RefR.RNode.ref _ => RefR.resolveRef t spec d) =
        RefR.stepIter spec d (RefR.stepRef spec (RefR.RNode.ref ptr))
      rcases h : RefR.lookupRef spec ptr with _ | t
      · have hstep : RefR.stepRef spec (RefR.RNode.ref ptr) = RefR.RNode.ref ptr := by
          simp [RefR.stepRef, h]
        rw [hstep, stepIter_fixed spec _ hstep]
      · have hstep : RefR.stepRef spec (RefR.RNode.ref ptr) = t := by
          simp [RefR.stepRef, h]
        rw [hstep]
        cases t with
        | val a => exact (stepIter_fixed spec _ (stepRef_val spec a) d).symm
        | ref q => exact ih (RefR.RNode.ref q)

/-- C1 (amended): `resolveRef` is total (never throws, never returns
null), returns a node without `$ref` unchanged, returns the original node
when the pointer target is not found, returns a found concrete target,
and equals bounded step iteration — so when the depth budget runs out
while targets are still references, the returned node is the last
reference reached on the chain, which can coincide with the original node
(for instance on immediate exhaustion, or when a cyclic chain returns to
it). -/
theorem resolveRef_c1_amended {α : Type} (spec : RefR.Components α)
    (node : RefR.RNode α) (d : Nat) :
    (RefR.resolveRef node spec d = RefR.stepIter spec d node) ∧
    (RefR.hasRef node = false → RefR.resolveRef node spec d = node) ∧
    (∀ ptr, node = RefR.RNode.ref ptr → RefR.lookupRef spec ptr = none →
      RefR.resolveRef node spec d = node) ∧
    (∀ ptr t, 0 < d → node = RefR.RNode.ref ptr → RefR.lookupRef spec ptr = some t →
      RefR.hasRef t = false → RefR.resolveRef node spec d = t) := by
  refine ⟨resolveRef_eq_stepIter spec d node, ?_, ?_, ?_⟩
  · intro h
    cases node with
    | ref ptr => exact absurd h (by simp [RefR.hasRef])
    | val a =>
      cases d with
      | zero => rfl
      | succ d => rfl
  · rintro ptr rfl h
    cases d with
    | zero => rfl
    | succ d =>
      show (match RefR.lookupRef spec ptr with
        | none => RefR.RNode.ref ptr
        | some t =>
          match t with
          | RefR.RNode.val _ => t
          | RefR.RNode.ref _ => RefR.resolveRef t spec d) = RefR.RNode.ref ptr
      rw [h]
  · rintro ptr t hd rfl hlk hnoref
    cases d with
    | zero => exact absurd hd (by omega)
    | succ d =>
      show (match RefR.lookupRef spec ptr with
        | none => RefR.RNode.ref ptr
        | some t =>
          match t with
          | RefR.RNode.val _ => t
          | RefR.RNode.ref _ => RefR.resolveRef t spec d) = t
      rw [hlk]
      cases t with
      | val a => rfl
      | ref q => exact absurd hnoref (by simp [RefR.hasRef])

/-- Witness for C1 (amended) at a concrete spec: a missing target returns
the original reference node, and a found concrete target is returned. -/
theorem resolveRef_c1_w :
    RefR.resolveRef (RefR.RNode.ref "#/components/schemas/Missing")
      ({ schemas := some [("User", RefR.RNode.val 7)] } : RefR.Components Nat) 10 =
      RefR.RNode.ref "#/components/schemas/Missing" ∧
    RefR.resolveRef (RefR.RNode.ref "#/components/schemas/User")
      ({ schemas := some [("User", RefR.RNode.val 7)] } : RefR.Components Nat) 10 =
      RefR.RNode.val 7 := by
  constructor
  · exact (resolveRef_c1_amended _ _ 10).2.2.1 "#/components/schemas/Missing" rfl (by decide)
  · exact (resolveRef_c1_amended _ _ 10).2.2.2 "#/components/schemas/User"
      (RefR.RNode.val 7) (by omega) rfl (by decide) rfl

/-- C1 is refuted as stated on a two-step reference chain with depth
budget 1: the code returns the intermediate reference node reached last,
not the original node that was passed in, even though the target of the
original pointer exists. -/
theorem resolveRef_c1_cx :
    RefR.resolveRef (RefR.RNode.ref "#/components/schemas/A")
      ({ schemas := some
          [("A", RefR.RNode.ref "#/components/schemas/B"),
           ("B", RefR.RNode.ref "#/components/schemas/C"),
           ("C", RefR.RNode.val 0)] } : RefR.Components Nat) 1 =
      RefR.RNode.ref "#/components/schemas/B" ∧
    (RefR.RNode.ref "#/components/schemas/B" : RefR.RNode Nat) ≠
      RefR.RNode.ref "#/components/schemas/A" ∧
    RefR.lookupRef
      ({ schemas := some
          [("A", RefR.RNode.ref "#/components/schemas/B"),
           ("B", RefR.RNode.ref "#/components/schemas/C"),
           ("C", RefR.RNode.val 0)] } : RefR.Components Nat)
      "#/components/schemas/A" ≠ none := by
  refine ⟨by decide, by decide, by decide⟩

/-- C9 (amended): parsing attempts YAML first and consults JSON only when
the YAML parse fails; a double parse failure is a fatal
`SpecValidationError` carrying the source path; with validation enabled a
parsed document is returned exactly when its `openapi` field is truthy or
its `swagger` field is string-valued, and otherwise the validator throws a
`SpecValidationError` whose `filePath` is the source path. -/
theorem parseSpec_c9_amended (yamlParse jsonParse : String → Except String SpecP.Doc)
    (content sourcePath : String) :
    (∀ d, yamlParse content = Except.ok d →
      SpecP.parseOpenAPISpecFromString yamlParse jsonParse content sourcePath true =
        SpecP.validateSpec d sourcePath true) ∧
    (∀ e d, yamlParse content = Except.error e → jsonParse content = Except.ok d →
      SpecP.parseOpenAPISpecFromString yamlParse jsonParse content sourcePath true =
        SpecP.validateSpec d sourcePath true) ∧
    (∀ e1 e2, yamlParse content = Except.error e1 → jsonParse content = Except.error e2 →
      SpecP.parseOpenAPISpecFromString yamlParse jsonParse content sourcePath true =
        Except.error ⟨SpecP.parseFailureMessage sourcePath e1, sourcePath⟩) ∧
    (∀ d, (SpecP.openapiTruthy d = true ∨ SpecP.hasSwaggerString d = true) →
      SpecP.validateSpec d sourcePath true = Except.ok d) ∧
    (∀ d, SpecP.openapiTruthy d = false → SpecP.hasSwaggerString d = false →
      SpecP.validateSpec d sourcePath true =
        Except.error ⟨SpecP.invalidSpecMessage sourcePath, sourcePath⟩) := by
  refine ⟨?_, ?_, ?_, ?_, ?_⟩
  · intro d h
    unfold SpecP.parseOpenAPISpecFromString
    rw [h]
  · intro e d hy hj
    unfold SpecP.parseOpenAPISpecFromString
    rw [hy, hj]
  · intro e1 e2 hy hj
    unfold SpecP.parseOpenAPISpecFromString
    rw [hy, hj]
  · intro d h
    unfold SpecP.validateSpec
    rcases h with h | h <;> simp [h]
  · intro d h1 h2
    unfold SpecP.validateSpec
    simp [h1, h2]

/-- Witness for C9 (amended) at concrete parsers and documents: a
succeeding YAML parse of a document with `openapi: "3.1.0"` is returned
without consulting the JSON parser, and a double failure errors with the
source path. -/
theorem parseSpec_c9_w :
    SpecP.parseOpenAPISpecFromString
        (fun _ => Except.ok ⟨some (SpecP.JsVal.str "3.1.0"), none⟩)
        (fun _ => Except.error "json rejected")
        "openapi: 3.1.0" "api.yaml" true =
      Except.ok ⟨some (SpecP.JsVal.str "3.1.0"), none⟩ ∧
    SpecP.parseOpenAPISpecFromString
        (fun _ => Except.error "bad yaml") (fun _ => Except.error "bad json")
        "%%%" "broken.yaml" true =
      Except.error ⟨SpecP.parseFailureMessage "broken.yaml" "bad yaml", "broken.yaml"⟩ := by
  constructor
  · have h := (parseSpec_c9_amended
      (fun _ => Except.ok ⟨some (SpecP.JsVal.str "3.1.0"), none⟩)
      (fun _ => Except.error "json rejected") "openapi: 3.1.0" "api.yaml").1
      ⟨some (SpecP.JsVal.str "3.1.0"), none⟩ rfl
    rw [h]
    exact (parseSpec_c9_amended (fun _ => Except.ok ⟨some (SpecP.JsVal.str "3.1.0"), none⟩)
      (fun _ => Except.error "json rejected") "openapi: 3.1.0" "api.yaml").2.2.2.1
      ⟨some (SpecP.JsVal.str "3.1.0"), none⟩ (Or.inl (by decide))
  · exact (parseSpec_c9_amended (fun _ => Except.error "bad yaml")
      (fun _ => Except.error "bad json") "%%%" "broken.yaml").2.2.1
      "bad yaml" "bad json" rfl rfl

/-- C9 is refuted as stated: a document whose `openapi` field is present
but empty (`openapi: ""`) has "either field present", yet the validator
raises a `SpecValidationError` instead of returning the spec, because the
code tests JS truthiness of the field rather than presence. -/
theorem parseSpec_c9_cx :
    (∃ v, (⟨some (SpecP.JsVal.str ""), none⟩ : SpecP.Doc).openapi = some v) ∧
    SpecP.parseOpenAPISpecFromString
        (fun _ => Except.ok ⟨some (SpecP.JsVal.str ""), none⟩)
        (fun _ => Except.error "not json")
        "openapi: \x27\x27" "empty.yaml" true =
      Except.error ⟨SpecP.invalidSpecMessage "empty.yaml", "empty.yaml"⟩ := by
  exact ⟨⟨SpecP.JsVal.str "", rfl⟩, rfl⟩

/-- Characterization of the `longestMatch` fold over prefix lengths
`1..n`: either no length matches and the accumulator survives, or the
result is the greatest matching length. -/
theorem longestMatchFold (m : String → Bool) (input : String) :
    ∀ (n : Nat) (acc : Option Nat),
      ((List.range' 1 n).foldl
          (fun acc1 i => if m (JsStr.jsTake i input) then some i else acc1) acc = acc ∧
        ∀ j, 1 ≤ j → j < 1 + n → m (JsStr.jsTake j input) = false) ∨
      (∃ L, (List.range' 1 n).foldl
          (fun acc1 i => if m (JsStr.jsTake i input) then some i else acc1) acc = some L ∧
        1 ≤ L ∧ L < 1 + n ∧ m (JsStr.jsTake L input) = true ∧
        ∀ j, L < j → j < 1 + n → m (JsStr.jsTake j input) = false) := by
  intro n
  induction n with
  | zero =>
    intro acc
    left
    exact ⟨rfl, fun j h1 h2 => absurd (by omega : j < 1) (by omega)⟩
  | succ n ih =>
    intro acc
    have hsplit : List.range' 1 (n + 1) = List.range' 1 n ++ [1 + n] := by
      have h1 := @List.range'_concat 1 1 n
      simpa using h1
    rw [hsplit, List.foldl_append]
    rcases h : m (JsStr.jsTake (1 + n) input) with _ | _
    · rcases ih acc with ⟨heq, hall⟩ | ⟨L, hL, h1, h2, h3, h4⟩
      · left
        refine ⟨by simp [heq, h], ?_⟩
        intro j hj1 hj2
        rcases Nat.lt_or_ge j (1 + n) with hj | hj
        · exact hall j hj1 hj
        · have : j = 1 + n := by omega
          rw [this]; exact h
      · right
        refine ⟨L, by simp [hL, h], h1, by omega, h3, ?_⟩
        intro j hj1 hj2
        rcases Nat.lt_or_ge j (1 + n) with hj | hj
        · exact h4 j hj1 hj
        · have : j = 1 + n := by omega
          rw [this]; exact h
    · right
      refine ⟨1 + n, by simp [h], by omega, by omega, h, ?_⟩
      intro j hj1 hj2
      omega

/-- C8 (amended): the glob-based `stripPrefix` finds the longest matching
candidate prefix (testing every prefix, not only the engine's first
match) and strips it, reinserting a requested leading separator (the
separator alone when the remainder is empty), but with no separator
requested a whole-string match returns the input unchanged; the
literal form is a plain prefix check; the regex-based variant instead
strips exactly the regex engine's match at position 0, which need not be
the longest fully-matching candidate prefix. -/
theorem stripPrefix_c8_amended (m : String → Bool)
    (rmatch : String → Option (Nat × String)) (input pat ch : String) :
    (∀ L, PatU.longestMatch m input = some L →
      1 ≤ L ∧ L ≤ input.length ∧ m (JsStr.jsTake L input) = true ∧
      ∀ j, L < j → j ≤ input.length → m (JsStr.jsTake j input) = false) ∧
    (PatU.longestMatch m input = none →
      (∀ j, 1 ≤ j → j ≤ input.length → m (JsStr.jsTake j input) = false) ∧
      ∀ e, PatU.stripPrefixGlob m input e = input) ∧
    (∀ L, PatU.longestMatch m input = some L → ch ≠ "" →
      PatU.stripPrefixGlob m input (some ch) =
        PatU.ensureLeading ch (JsStr.jsDrop L input)) ∧
    (∀ L, PatU.longestMatch m input = some L →
      PatU.stripPrefixGlob m input none =
        (if JsStr.jsDrop L input = "" then input else JsStr.jsDrop L input)) ∧
    (PatU.stripPrefixLit pat input none =
      (if JsStr.jsStartsWith input pat then JsStr.jsDrop pat.length input else input)) ∧
    (∀ mstr, rmatch input = some (0, mstr) →
      PatU.stripPrefixRegex rmatch input none = JsStr.jsDrop mstr.length input) ∧
    (rmatch input = none → PatU.stripPrefixRegex rmatch input none = input) := by
  have hchar := longestMatchFold m input input.length none
  refine ⟨?_, ?_, ?_, ?_, ?_, ?_, ?_⟩
  · intro L hL
    rcases hchar with ⟨heq, _⟩ | ⟨L1, hL1, h1, h2, h3, h4⟩
    · rw [PatU.longestMatch] at hL
      rw [heq] at hL
      exact absurd hL (by simp)
    · rw [PatU.longestMatch] at hL
      rw [hL1] at hL
      obtain rfl : L1 = L := by injection hL
      exact ⟨h1, by omega, h3, fun j hj1 hj2 => h4 j hj1 (by omega)⟩
  · intro hnone
    rcases hchar with ⟨heq, hall⟩ | ⟨L1, hL1, h1, h2, h3, h4⟩
    · refine ⟨fun j hj1 hj2 => hall j hj1 (by omega), ?_⟩
      intro e
      unfold PatU.stripPrefixGlob
      rw [hnone]
    · rw [PatU.longestMatch] at hnone
      rw [hL1] at hnone
      exact absurd hnone (by simp)
  · intro L hL hch
    unfold PatU.stripPrefixGlob
    rw [hL]
    simp [PatU.ensureArg, hch]
  · intro L hL
    unfold PatU.stripPrefixGlob
    rw [hL]
    rfl
  · unfold PatU.stripPrefixLit
    rcases h : JsStr.jsStartsWith input pat with _ | _ <;> simp [h, PatU.ensureArg]
  · intro mstr h
    unfold PatU.stripPrefixRegex
    rw [h]
    rfl
  · intro h
    unfold PatU.stripPrefixRegex
    rw [h]

/-- Witness for C8 (amended) at concrete inputs: the glob matcher for
pattern `/api/v*` strips the longest matching prefix of
`"/api/v1/users"` with the separator re-inserted, and the regex engine
model for `/^x/` strips its match at position 0. -/
theorem stripPrefix_c8_w :
    PatU.stripPrefixRegex (fun s => if JsStr.jsStartsWith s "x" then some (0, "x") else none)
        "xyz" none = "yz" ∧
    PatU.stripPrefixLit "Api" "ApiUser" none = "User" ∧
    PatU.stripPrefixGlob
        (fun s => JsStr.jsStartsWith s "/api/v" && !(JsStr.jsDrop 6 s).toList.contains '/')
        "/api/v1/users" (some "/") = "/users" := by
  refine ⟨?_, ?_, ?_⟩
  · have h := (stripPrefix_c8_amended (fun _ => false)
      (fun s => if JsStr.jsStartsWith s "x" then some (0, "x") else none) "xyz" "" "").2.2.2.2.2.1
      "x" (by decide)
    rw [h]
    decide
  · have h := (stripPrefix_c8_amended (fun _ => false) (fun _ => none)
      "ApiUser" "Api" "").2.2.2.2.1
    rw [h]
    decide
  · have h := (stripPrefix_c8_amended
      (fun s => JsStr.jsStartsWith s "/api/v" && !(JsStr.jsDrop 6 s).toList.contains '/')
      (fun _ => none) "/api/v1/users" "" "/").2.2.1 7 (by decide) (by decide)
    rw [h]
    decide

/-- C8 is refuted as stated on the regex-based `stripPrefix`: for the
pattern `^a|^ab` (modelled by its JS engine behaviour, which returns the
leftmost alternative's match `"a"` at position 0 on `"ab"`), the code
strips only `"a"` leaving `"b"`, while the longest candidate prefix fully
matching the pattern is `"ab"`, whose stripping would leave `""`; the
glob-based variant also deviates when the whole input matches and no
separator is requested, returning the input unchanged instead of the
stripped empty remainder. -/
theorem stripPrefix_c8_cx :
    PatU.stripPrefixRegex
        (fun s => if JsStr.jsStartsWith s "a" then some (0, "a") else none)
        "ab" none = "b" ∧
    PatU.claimStrip (fun s => s == "a" || s == "ab") "ab" none = "" ∧
    ("b" : String) ≠ "" ∧
    PatU.stripPrefixGlob (fun s => s == "ab") "ab" none = "ab" ∧
    PatU.claimStrip (fun s => s == "ab") "ab" none = "" := by
  refine ⟨by decide, by decide, by decide, by decide, by decide⟩

/-- Setting the element at the split position replaces the middle element. -/
theorem setMid {α : Type} (x w : α) : ∀ (l1 l2 : List α),
    (l1 ++ x :: l2).set l1.length w = l1 ++ w :: l2 := by
  intro l1
  induction l1 with
  | nil => intro l2; rfl
  | cons a l ih => intro l2; simp [List.set, ih l2]

/-- A successful `findIdx?` splits the list at the first hit. -/
theorem findIdxSplit {α : Type} (p : α → Bool) : ∀ (l : List α) (i : Nat),
    l.findIdx? p = some i →
    ∃ l1 x l2, l = l1 ++ x :: l2 ∧ l1.length = i ∧ p x = true ∧ ∀ y ∈ l1, p y = false := by
  intro l
  induction l with
  | nil => intro i h; exact absurd h (by simp)
  | cons a l ih =>
    intro i h
    rcases hp : p a with _ | _
    · rw [List.findIdx?_cons, hp] at h
      simp only [Bool.false_eq_true, if_false, List.findIdx?_succ, Option.map_eq_some'] at h
      obtain ⟨j, hj, rfl⟩ := h
      obtain ⟨l1, x, l2, rfl, hlen, hx, hall⟩ := ih j hj
      refine ⟨a :: l1, x, l2, rfl, by simp [hlen], hx, ?_⟩
      intro y hy
      rcases List.mem_cons.mp hy with rfl | hy2
      · exact hp
      · exact hall y hy2
    · rw [List.findIdx?_cons, hp] at h
      simp only [if_true] at h
      obtain rfl : i = 0 := by
        have := h
        simp at this
        omega
      exact ⟨[], a, l, rfl, rfl, hp, by simp⟩

/-- Substitution against an empty operation list is the identity. -/
theorem substBy_nil (p : RefR.RNode RefR.PVal) : RefR.substBy [] p = p := by
  unfold RefR.substBy
  rcases h : RefR.isResolvedParameter p with _ | _ <;> simp [h]

/-- Substitution skips a head entry that does not match the key. -/
theorem substBy_cons_skip (o : RefR.RNode RefR.PVal) (ro : List (RefR.RNode RefR.PVal))
    (p : RefR.RNode RefR.PVal)
    (h : ¬ (RefR.isResolvedParameter o = true ∧ RefR.pName o = RefR.pName p ∧
        RefR.pIn o = RefR.pIn p)) :
    RefR.substBy (o :: ro) p = RefR.substBy ro p := by
  unfold RefR.substBy
  rcases hp : RefR.isResolvedParameter p with _ | _
  · simp [hp]
  · simp only [hp, if_true]
    rw [List.find?_cons_of_neg]
    simpa using h

/-- Substitution returns a matching head entry for a parameter-shaped
input. -/
theorem substBy_cons_hit (o : RefR.RNode RefR.PVal) (ro : List (RefR.RNode RefR.PVal))
    (p : RefR.RNode RefR.PVal) (hp : RefR.isResolvedParameter p = true)
    (h : RefR.isResolvedParameter o = true ∧ RefR.pName o = RefR.pName p ∧
        RefR.pIn o = RefR.pIn p) :
    RefR.substBy (o :: ro) p = o := by
  unfold RefR.substBy
  simp only [hp, if_true]
  rw [List.find?_cons_of_pos]
  simpa using h

/-- `NodupKeys` through a parameter-shaped head. -/
theorem nodupKeys_cons_param {o : RefR.RNode RefR.PVal} {ro : List (RefR.RNode RefR.PVal)}
    (hP : RefR.isResolvedParameter o = true) (h : RefR.NodupKeys (o :: ro)) :
    RefR.NodupKeys ro ∧
      ∀ y ∈ ro, RefR.isResolvedParameter y = true → RefR.pKeyOf y ≠ RefR.pKeyOf o := by
  unfold RefR.NodupKeys at h ⊢
  rw [List.filter_cons_of_pos (by simpa using hP), List.map_cons] at h
  rw [List.nodup_cons] at h
  refine ⟨h.2, ?_⟩
  intro y hy hyp hkey
  exact h.1 (by
    rw [← hkey]
    exact List.mem_map_of_mem _ (List.mem_filter.mpr ⟨hy, by simpa using hyp⟩))

/-- `NodupKeys` through a non-parameter head. -/
theorem nodupKeys_cons_nonparam {o : RefR.RNode RefR.PVal} {ro : List (RefR.RNode RefR.PVal)}
    (hP : RefR.isResolvedParameter o = false) (h : RefR.NodupKeys (o :: ro)) :
    RefR.NodupKeys ro := by
  unfold RefR.NodupKeys at h ⊢
  rwa [List.filter_cons_of_neg (by simp [hP])] at h

/-- In a list with pairwise-distinct parameter keys, the parameter at a
split position has a key distinct from every other parameter entry, and
replacing it by a parameter with the same key preserves `NodupKeys`. -/
theorem nodupKeys_middle {l1 l2 : List (RefR.RNode RefR.PVal)} {x w : RefR.RNode RefR.PVal}
    (hx : RefR.isResolvedParameter x = true) (hw : RefR.isResolvedParameter w = true)
    (hkey : RefR.pKeyOf w = RefR.pKeyOf x) (h : RefR.NodupKeys (l1 ++ x :: l2)) :
    RefR.NodupKeys (l1 ++ w :: l2) ∧
      (∀ y ∈ l1 ++ l2, RefR.isResolvedParameter y = true → RefR.pKeyOf y ≠ RefR.pKeyOf x) := by
  unfold RefR.NodupKeys at h ⊢
  rw [List.filter_append, List.filter_cons_of_pos (by simpa using hx), List.map_append,
    List.map_cons] at h
  rw [List.filter_append, List.filter_cons_of_pos (by simpa using hw), List.map_append,
    List.map_cons, hkey]
  refine ⟨h, ?_⟩
  intro y hy hyp hk
  rcases List.mem_append.mp hy with h1 | h2
  · have hmem : RefR.pKeyOf x ∈ (List.filter (fun x => RefR.isResolvedParameter x) l1).map
        RefR.pKeyOf := by
      rw [← hk]
      exact List.mem_map_of_mem _ (List.mem_filter.mpr ⟨h1, by simpa using hyp⟩)
    rcases List.nodup_append.mp h with ⟨_, _, hdisj⟩
    exact hdisj hmem (by simp)
  · have hmem : RefR.pKeyOf x ∈ (List.filter (fun x => RefR.isResolvedParameter x) l2).map
        RefR.pKeyOf := by
      rw [← hk]
      exact List.mem_map_of_mem _ (List.mem_filter.mpr ⟨h2, by simpa using hyp⟩)
    rcases List.nodup_append.mp h with ⟨_, hcons, _⟩
    rw [List.nodup_cons] at hcons
    exact hcons.1 hmem

/-- Substitution leaves non-parameter entries untouched. -/
theorem substBy_nonparam (ro : List (RefR.RNode RefR.PVal)) (p : RefR.RNode RefR.PVal)
    (hp : RefR.isResolvedParameter p = false) : RefR.substBy ro p = p := by
  unfold RefR.substBy
  simp [hp]

/-- Substitution is the identity when no operation entry matches. -/
theorem substBy_self_of_nomatch (ro : List (RefR.RNode RefR.PVal)) (p : RefR.RNode RefR.PVal)
    (h : ∀ o ∈ ro, ¬ (RefR.isResolvedParameter o = true ∧ RefR.pName o = RefR.pName p ∧
        RefR.pIn o = RefR.pIn p)) :
    RefR.substBy ro p = p := by
  unfold RefR.substBy
  rcases hp : RefR.isResolvedParameter p with _ | _
  · simp [hp]
  · simp only [hp, if_true]
    rw [List.find?_eq_none.mpr]
    intro o ho
    simpa using h o ho

/-- Appending a fresh-keyed parameter preserves `NodupKeys`. -/
theorem nodupKeys_append_singleton {rp : List (RefR.RNode RefR.PVal)}
    {o : RefR.RNode RefR.PVal} (hrp : RefR.NodupKeys rp)
    (hP : RefR.isResolvedParameter o = true)
    (h : ∀ y ∈ rp, RefR.isResolvedParameter y = true → RefR.pKeyOf y ≠ RefR.pKeyOf o) :
    RefR.NodupKeys (rp ++ [o]) := by
  unfold RefR.NodupKeys at hrp ⊢
  rw [List.filter_append, List.filter_cons_of_pos (by simpa using hP), List.filter_nil,
    List.map_append, List.map_cons, List.map_nil]
  rw [List.nodup_append]
  refine ⟨hrp, by simp, ?_⟩
  intro k hk
  rcases List.mem_map.mp hk with ⟨y, hy, rfl⟩
  rcases List.mem_filter.mp hy with ⟨hy1, hy2⟩
  simp only [List.mem_cons, List.not_mem_nil, or_false]
  exact h y hy1 (by simpa using hy2)

/-- The overlay fold of `mergeParameters` equals the claim's merge when
the parameter-shaped entries of each resolved list have pairwise distinct
`(name, in)` keys. -/
theorem mergeFold_eq :
    ∀ (ro rp : List (RefR.RNode RefR.PVal)),
      RefR.NodupKeys rp → RefR.NodupKeys ro →
      ro.foldl RefR.mergeStep rp =
        rp.map (RefR.substBy ro) ++ ro.filter (RefR.appendPred rp) := by
  intro ro
  induction ro with
  | nil =>
    intro rp _ _
    simp only [List.foldl_nil, List.filter_nil, List.append_nil]
    rw [List.map_congr_left (fun y _ => substBy_nil y)]
    exact (List.map_id rp).symm
  | cons o ro ih =>
    intro rp hrp hro
    rw [List.foldl_cons]
    rcases hP : RefR.isResolvedParameter o with _ | _
    · have hstep : RefR.mergeStep rp o = rp := by
        unfold RefR.mergeStep
        simp [hP]
      have hro2 := nodupKeys_cons_nonparam hP hro
      rw [hstep, ih rp hrp hro2]
      have hmap : rp.map (RefR.substBy ro) = rp.map (RefR.substBy (o :: ro)) := by
        refine List.map_congr_left ?_
        intro y _
        exact (substBy_cons_skip o ro y
          (fun hc => by rw [hP] at hc; exact absurd hc.1 (by simp))).symm
      have hfil : ro.filter (RefR.appendPred rp) = (o :: ro).filter (RefR.appendPred rp) := by
        rw [List.filter_cons_of_neg]
        unfold RefR.appendPred
        simp [hP]
      rw [hmap, hfil]
    · obtain ⟨hro2, hroKeys⟩ := nodupKeys_cons_param hP hro
      have hstep : RefR.mergeStep rp o =
          match rp.findIdx? (fun p => RefR.isResolvedParameter p ∧
              RefR.pName p = RefR.pName o ∧ RefR.pIn p = RefR.pIn o) with
          | some existingIndex => rp.set existingIndex o
          | none => rp ++ [o] := by
        unfold RefR.mergeStep
        simp [hP]
      rcases hidx : rp.findIdx? (fun p => RefR.isResolvedParameter p ∧
          RefR.pName p = RefR.pName o ∧ RefR.pIn p = RefR.pIn o) with _ | i
      · -- no path-level entry shares the key: the entry is appended
        have hstep2 : RefR.mergeStep rp o = rp ++ [o] := by rw [hstep, hidx]
        have hnone := List.findIdx?_eq_none_iff.mp hidx
        have hnone2 : ∀ y ∈ rp, RefR.isResolvedParameter y = true →
            RefR.pKeyOf y ≠ RefR.pKeyOf o := by
          intro y hy hyp hk
          have h1 := hnone y hy
          rw [RefR.pKeyOf, RefR.pKeyOf, Prod.ext_iff] at hk
          simp only [decide_eq_false_iff_not] at h1
          exact h1 ⟨hyp, hk.1, hk.2⟩
        have hrp2 : RefR.NodupKeys (rp ++ [o]) := nodupKeys_append_singleton hrp hP hnone2
        rw [hstep2, ih (rp ++ [o]) hrp2 hro2]
        have hself : RefR.substBy ro o = o := by
          refine substBy_self_of_nomatch ro o ?_
          intro y hy hc
          refine hroKeys y hy hc.1 ?_
          rw [RefR.pKeyOf, RefR.pKeyOf, Prod.ext_iff]
          exact ⟨hc.2.1, hc.2.2⟩
        have hmap : (rp ++ [o]).map (RefR.substBy ro) =
            rp.map (RefR.substBy (o :: ro)) ++ [o] := by
          rw [List.map_append, List.map_cons, List.map_nil, hself]
          congr 1
          refine List.map_congr_left ?_
          intro y hy
          rcases hyp : RefR.isResolvedParameter y with _ | _
          · rw [substBy_nonparam ro y hyp, substBy_nonparam (o :: ro) y hyp]
          · refine (substBy_cons_skip o ro y ?_).symm
            intro hc
            refine hnone2 y hy hyp ?_
            rw [RefR.pKeyOf, RefR.pKeyOf, Prod.ext_iff]
            exact ⟨hc.2.1.symm, hc.2.2.symm⟩
        have hany : rp.any (fun p => RefR.isResolvedParameter p ∧
            RefR.pName p = RefR.pName o ∧ RefR.pIn p = RefR.pIn o) = false := by
          rw [List.any_eq_false]
          intro y hy
          simp only [decide_eq_true_eq]
          intro hc
          refine hnone2 y hy hc.1 ?_
          rw [RefR.pKeyOf, RefR.pKeyOf, Prod.ext_iff]
          exact ⟨hc.2.1, hc.2.2⟩
        have happ : RefR.appendPred rp o = true := by
          unfold RefR.appendPred
          refine decide_eq_true ?_
          exact ⟨hP, by rw [hany]; simp⟩
        have hfilcons : (o :: ro).filter (RefR.appendPred rp) =
            o :: ro.filter (RefR.appendPred rp) := List.filter_cons_of_pos happ
        have hfilptw : ro.filter (RefR.appendPred (rp ++ [o])) =
            ro.filter (RefR.appendPred rp) := by
          refine List.filter_congr ?_
          intro y hy
          unfold RefR.appendPred
          refine decide_eq_decide.mpr ?_
          rcases hyp : RefR.isResolvedParameter y with _ | _
          · simp [hyp]
          · have hoy : ¬ (RefR.isResolvedParameter o = true ∧
                RefR.pName o = RefR.pName y ∧ RefR.pIn o = RefR.pIn y) := by
              intro hc
              refine hroKeys y hy hyp ?_
              rw [RefR.pKeyOf, RefR.pKeyOf, Prod.ext_iff]
              exact ⟨hc.2.1.symm, hc.2.2.symm⟩
            have hanyeq : (rp ++ [o]).any (fun p => RefR.isResolvedParameter p ∧
                RefR.pName p = RefR.pName y ∧ RefR.pIn p = RefR.pIn y) =
                rp.any (fun p => RefR.isResolvedParameter p ∧
                RefR.pName p = RefR.pName y ∧ RefR.pIn p = RefR.pIn y) := by
              rw [List.any_append, List.any_cons, List.any_nil]
              rw [decide_eq_false hoy]
              simp
            rw [hanyeq]
        rw [hmap, hfilcons, hfilptw]
        simp
      · -- a path-level entry shares the key: replaced in place
        obtain ⟨l1, x, l2, rfl, hlen, hx, hl1⟩ := findIdxSplit _ rp i hidx
        have hstep2 : RefR.mergeStep (l1 ++ x :: l2) o = l1 ++ o :: l2 := by
          rw [hstep, hidx]
          show (l1 ++ x :: l2).set i o = l1 ++ o :: l2
          rw [← hlen, setMid]
        have hxc : RefR.isResolvedParameter x = true ∧ RefR.pName x = RefR.pName o ∧
            RefR.pIn x = RefR.pIn o := by simpa using hx
        have hkey : RefR.pKeyOf o = RefR.pKeyOf x := by
          rw [RefR.pKeyOf, RefR.pKeyOf, Prod.ext_iff]
          exact ⟨hxc.2.1.symm, hxc.2.2.symm⟩
        obtain ⟨hrp2, hother⟩ := nodupKeys_middle hxc.1 hP hkey hrp
        rw [hstep2, ih (l1 ++ o :: l2) hrp2 hro2]
        have hself : RefR.substBy ro o = o := by
          refine substBy_self_of_nomatch ro o ?_
          intro y hy hc
          refine hroKeys y hy hc.1 ?_
          rw [RefR.pKeyOf, RefR.pKeyOf, Prod.ext_iff]
          exact ⟨hc.2.1, hc.2.2⟩
        have hhit : RefR.substBy (o :: ro) x = o :=
          substBy_cons_hit o ro x hxc.1 ⟨hP, hxc.2.1.symm, hxc.2.2.symm⟩
        have hside : ∀ y, y ∈ l1 ++ l2 → RefR.substBy ro y = RefR.substBy (o :: ro) y := by
          intro y hy
          rcases hyp : RefR.isResolvedParameter y with _ | _
          · rw [substBy_nonparam ro y hyp, substBy_nonparam (o :: ro) y hyp]
          · refine (substBy_cons_skip o ro y ?_).symm
            intro hc
            refine hother y hy hyp ?_
            rw [RefR.pKeyOf, RefR.pKeyOf, Prod.ext_iff] at hkey ⊢
            exact ⟨hc.2.1.symm.trans hkey.1, hc.2.2.symm.trans hkey.2⟩
        have hmap : (l1 ++ o :: l2).map (RefR.substBy ro) =
            (l1 ++ x :: l2).map (RefR.substBy (o :: ro)) := by
          rw [List.map_append, List.map_append, List.map_cons, List.map_cons, hself, hhit]
          congr 1
          · exact List.map_congr_left (fun y hy => hside y (List.mem_append.mpr (Or.inl hy)))
          · congr 1
            exact List.map_congr_left (fun y hy => hside y (List.mem_append.mpr (Or.inr hy)))
        have hanyx : (l1 ++ x :: l2).any (fun p => RefR.isResolvedParameter p ∧
            RefR.pName p = RefR.pName o ∧ RefR.pIn p = RefR.pIn o) = true := by
          rw [List.any_eq_true]
          exact ⟨x, by simp, hx⟩
        have happf : RefR.appendPred (l1 ++ x :: l2) o = false := by
          unfold RefR.appendPred
          refine decide_eq_false ?_
          intro hc
          exact hc.2 hanyx
        have hfilcons : (o :: ro).filter (RefR.appendPred (l1 ++ x :: l2)) =
            ro.filter (RefR.appendPred (l1 ++ x :: l2)) :=
          List.filter_cons_of_neg (by simp [happf])
        have hfilptw : ro.filter (RefR.appendPred (l1 ++ o :: l2)) =
            ro.filter (RefR.appendPred (l1 ++ x :: l2)) := by
          refine List.filter_congr ?_
          intro y hy
          unfold RefR.appendPred
          refine decide_eq_decide.mpr ?_
          have hmid : ∀ (w : RefR.RNode RefR.PVal), RefR.pKeyOf w = RefR.pKeyOf o →
              RefR.isResolvedParameter w = true →
              (l1 ++ w :: l2).any (fun p => RefR.isResolvedParameter p ∧
                RefR.pName p = RefR.pName y ∧ RefR.pIn p = RefR.pIn y) =
              (l1.any (fun p => RefR.isResolvedParameter p ∧
                RefR.pName p = RefR.pName y ∧ RefR.pIn p = RefR.pIn y) ||
               decide (RefR.pName o = RefR.pName y ∧ RefR.pIn o = RefR.pIn y) ||
               l2.any (fun p => RefR.isResolvedParameter p ∧
                RefR.pName p = RefR.pName y ∧ RefR.pIn p = RefR.pIn y)) := by
            intro w hw hwp
            rw [List.any_append, List.any_cons]
            rw [RefR.pKeyOf, RefR.pKeyOf, Prod.mk.injEq] at hw
            have heq : (decide (RefR.isResolvedParameter w = true ∧
                RefR.pName w = RefR.pName y ∧ RefR.pIn w = RefR.pIn y)) =
                decide (RefR.pName o = RefR.pName y ∧ RefR.pIn o = RefR.pIn y) := by
              refine decide_eq_decide.mpr ?_
              constructor
              · intro hc
                exact ⟨hw.1 ▸ hc.2.1, hw.2 ▸ hc.2.2⟩
              · intro hc
                exact ⟨hwp, hw.1.symm ▸ hc.1, hw.2.symm ▸ hc.2⟩
            rw [heq, Bool.or_assoc, Bool.or_comm (decide _), ← Bool.or_assoc]
          rw [hmid o rfl hP, hmid x hkey.symm hxc.1]
        rw [hmap, hfilcons, hfilptw]

/-- C7 (amended): when the parameter-shaped entries of each resolved list
carry pairwise distinct `(name, in)` keys, `mergeParameters` resolves both
lists and returns the path-level parameters first in their original
order, each replaced in place by the operation-level parameter with the
same `(name, in)` key when one exists (operation entries win), with the
operation-level parameters matching no path-level key appended in
declaration order. -/
theorem mergeParameters_c7_amended (pathParams operationParams : Option (List (RefR.RNode RefR.PVal)))
    (spec : RefR.Components RefR.PVal)
    (hrp : RefR.NodupKeys ((pathParams.getD []).map (fun p => RefR.resolveParameterRef p spec)))
    (hro : RefR.NodupKeys ((operationParams.getD []).map (fun p => RefR.resolveParameterRef p spec))) :
    RefR.mergeParameters pathParams operationParams spec =
      RefR.claimMerge pathParams operationParams spec := by
  show ((operationParams.getD []).map (fun p => RefR.resolveParameterRef p spec)).foldl
      RefR.mergeStep ((pathParams.getD []).map (fun p => RefR.resolveParameterRef p spec)) = _
  rw [mergeFold_eq _ _ hrp hro]
  rfl

/-- Witness for C7 (amended) at a concrete merge: the operation-level
`("a", "query")` parameter replaces the path-level one in place, the
path-level `("b", "header")` parameter stays, and the operation-only
`("c", "query")` parameter is appended. -/
theorem mergeParameters_c7_w :
    RefR.mergeParameters
        (some [RefR.RNode.val (RefR.PVal.param "a" "query" 1),
               RefR.RNode.val (RefR.PVal.param "b" "header" 2)])
        (some [RefR.RNode.val (RefR.PVal.param "a" "query" 9),
               RefR.RNode.val (RefR.PVal.param "c" "query" 3)])
        ({} : RefR.Components RefR.PVal) =
      [RefR.RNode.val (RefR.PVal.param "a" "query" 9),
       RefR.RNode.val (RefR.PVal.param "b" "header" 2),
       RefR.RNode.val (RefR.PVal.param "c" "query" 3)] := by
  rw [mergeParameters_c7_amended _ _ _ (by unfold RefR.NodupKeys; decide)
    (by unfold RefR.NodupKeys; decide)]
  decide

/-- C7 is refuted as stated when two operation-level parameters share one
`(name, in)` key and no path-level parameter has it: the claim appends
both (no path-level parameter shares the key), but the code lets the
second replace the first appended one, returning a single entry. -/
theorem mergeParameters_c7_cx :
    RefR.mergeParameters (some [])
        (some [RefR.RNode.val (RefR.PVal.param "x" "query" 1),
               RefR.RNode.val (RefR.PVal.param "x" "query" 2)])
        ({} : RefR.Components RefR.PVal) =
      [RefR.RNode.val (RefR.PVal.param "x" "query" 2)] ∧
    RefR.claimMerge (some [])
        (some [RefR.RNode.val (RefR.PVal.param "x" "query" 1),
               RefR.RNode.val (RefR.PVal.param "x" "query" 2)])
        ({} : RefR.Components RefR.PVal) =
      [RefR.RNode.val (RefR.PVal.param "x" "query" 1),
       RefR.RNode.val (RefR.PVal.param "x" "query" 2)] ∧
    ([RefR.RNode.val (RefR.PVal.param "x" "query" 2)] : List (RefR.RNode RefR.PVal)) ≠
      [RefR.RNode.val (RefR.PVal.param "x" "query" 1),
       RefR.RNode.val (RefR.PVal.param "x" "query" 2)] := by
  refine ⟨by decide, by decide, by decide⟩

/-- One `2xx` step of the success-response loop, phrased through
`entryTrigger`: the loop stops at a triggering entry with its value and
otherwise recurses with the updated tracked status. -/
theorem scanResponses_cons2xx (spec : RefR.Components EndX.Resp) (preferred : List String)
    (track : Bool) (code : String) (r : EndX.RespNode) (rest : List (String × EndX.RespNode))
    (st : EndX.ScanState) (h2 : JsStr.jsStartsWith code "2" = true) :
    EndX.scanResponses spec preferred track ((code, r) :: rest) st =
      (match EndX.entryTrigger spec preferred track (code, r) with
       | some t =>
         { srt := some t,
           ssc := (if track then { st with ssc := EndX.jsParseInt code } else st).ssc }
       | none =>
         EndX.scanResponses spec preferred track rest
           (if track then { st with ssc := EndX.jsParseInt code } else st)) := by
  simp only [EndX.scanResponses, EndX.entryTrigger]
  rw [if_neg (by simp [h2])]
  rcases hct : EndX.contentOf (RefR.resolveRef r spec 10) with _ | m
  · rcases track with _ | _ <;> simp
  · rcases hsel : CtU.selectContentType (m.map Prod.fst) preferred with _ | ct
    · simp [hsel]
    · rcases hlk : m.lookup ct with _ | md
      · simp [hsel, hlk]
      · rcases hsch : md.schema with _ | sch
        · simp [hsel, hlk, hsch]
        · simp [hsel, hlk, hsch]

/-- The success-response loop, started with no type found yet and an
arbitrary tracked status, scans exactly as the specification function
describes: the first triggering `2xx` entry decides, and otherwise the
last `2xx` entry's parsed code survives (or the initial value with no
`2xx` entry). -/
theorem scanResponses_eq (spec : RefR.Components EndX.Resp) (preferred : List String)
    (track : Bool) :
    ∀ (rs : List (String × EndX.RespNode)) (c : Option Int),
      EndX.scanResponses spec preferred track rs ⟨none, c⟩ =
        (match (rs.filter (fun e => JsStr.jsStartsWith e.1 "2")).find?
            (fun e => (EndX.entryTrigger spec preferred track e).isSome) with
         | some e =>
           ⟨EndX.entryTrigger spec preferred track e,
            if track then EndX.jsParseInt e.1 else c⟩
         | none =>
           ⟨none,
            if track then
              (match (rs.filter (fun e => JsStr.jsStartsWith e.1 "2")).getLast? with
               | some e => EndX.jsParseInt e.1
               | none => c)
            else c⟩) := by
  intro rs
  induction rs with
  | nil =>
    intro c
    simp only [EndX.scanResponses, List.filter_nil, List.find?_nil, List.getLast?_nil]
    rcases track with _ | _ <;> rfl
  | cons e rest ih =>
    intro c
    obtain ⟨code, r⟩ := e
    rcases h2 : JsStr.jsStartsWith code "2" with _ | _
    · have hfil : ((code, r) :: rest).filter (fun e => JsStr.jsStartsWith e.1 "2") =
          rest.filter (fun e => JsStr.jsStartsWith e.1 "2") :=
        List.filter_cons_of_neg (by simp [h2])
      rw [hfil, ← ih c]
      show (if ¬ JsStr.jsStartsWith code "2" = true then
          EndX.scanResponses spec preferred track rest ⟨none, c⟩
        else _) = EndX.scanResponses spec preferred track rest ⟨none, c⟩
      rw [if_pos (by simp [h2])]
    · have hfil : ((code, r) :: rest).filter (fun e => JsStr.jsStartsWith e.1 "2") =
          (code, r) :: rest.filter (fun e => JsStr.jsStartsWith e.1 "2") :=
        List.filter_cons_of_pos (by simp [h2])
      rw [hfil, scanResponses_cons2xx spec preferred track code r rest ⟨none, c⟩ h2]
      rcases htr : EndX.entryTrigger spec preferred track (code, r) with _ | t
      · have hfind : ((code, r) :: rest.filter (fun e => JsStr.jsStartsWith e.1 "2")).find?
            (fun e => (EndX.entryTrigger spec preferred track e).isSome) =
            (rest.filter (fun e => JsStr.jsStartsWith e.1 "2")).find?
              (fun e => (EndX.entryTrigger spec preferred track e).isSome) :=
          List.find?_cons_of_neg _ (by simp [htr])
        rw [hfind]
        have hst1 : (if track then ({ srt := none, ssc := EndX.jsParseInt code } : EndX.ScanState)
            else { srt := none, ssc := c }) =
            { srt := none, ssc := if track then EndX.jsParseInt code else c } := by
          rcases track with _ | _ <;> rfl
        show EndX.scanResponses spec preferred track rest
            (if track then ({ srt := none, ssc := EndX.jsParseInt code } : EndX.ScanState)
              else { srt := none, ssc := c }) = _
        rw [hst1, ih (if track then EndX.jsParseInt code else c)]
        rcases htk : track with _ | _
        · simp only [Bool.false_eq_true, if_false]
        · simp only [reduceIte]
          rcases hfind2 : (rest.filter (fun e => JsStr.jsStartsWith e.1 "2")).find?
              (fun e => (EndX.entryTrigger spec preferred true e).isSome) with _ | e2
          · rcases hrest : (rest.filter (fun e => JsStr.jsStartsWith e.1 "2")) with _ | ⟨f0, fr⟩
            · rw [hrest] at hfind2
              simp only [hrest, List.getLast?_nil, List.getLast?_singleton]
            · rw [hrest] at hfind2
              simp only [hrest, List.getLast?_cons_cons]
              rw [hfind2]
              rcases hl : (f0 :: fr).getLast? with _ | l
              · exact absurd hl (by simp)
              · rfl
          · rw [hfind2]
      · have hfind : ((code, r) :: rest.filter (fun e => JsStr.jsStartsWith e.1 "2")).find?
            (fun e => (EndX.entryTrigger spec preferred track e).isSome) =
            some (code, r) :=
          List.find?_cons_of_pos _ (by simp [htr])
        rw [hfind]
        rcases track with _ | _ <;> simp [htr]

/-- C5 (amended): the success response is derived from `2xx` entries only,
scanning in map order: the first `2xx` entry that either exposes a schema
through its resolved content (giving its type string) or, when status
tracking is enabled, fails the content guard (giving `"void"`) determines
`successResponseType`, with the tracked status code taken from that entry
(or from the last `2xx` entry when none triggers); with tracking disabled
no status code is recorded and a content-less `2xx` entry never produces
`"void"`. -/
theorem scan_c5_amended (spec : RefR.Components EndX.Resp) (preferred : List String)
    (track : Bool) :
    (∀ rs, EndX.scanResponses spec preferred track rs {} =
      EndX.scanSpecified spec preferred track rs) ∧
    (EndX.extractSuccessResponse spec preferred track none = {}) ∧
    (∀ rs, EndX.extractSuccessResponse spec preferred track (some rs) =
      EndX.scanSpecified spec preferred track rs) ∧
    (∀ rs, EndX.scanSpecified spec preferred track
        (rs.filter (fun e => JsStr.jsStartsWith e.1 "2")) =
      EndX.scanSpecified spec preferred track rs) ∧
    (track = false → ∀ rs, (EndX.scanResponses spec preferred track rs {}).ssc = none) ∧
    (∀ entry : String × EndX.RespNode,
      EndX.contentOf (RefR.resolveRef entry.2 spec 10) = none → track = false →
      EndX.entryTrigger spec preferred track entry = none) := by
  have h1 : ∀ rs, EndX.scanResponses spec preferred track rs {} =
      EndX.scanSpecified spec preferred track rs := by
    intro rs
    rw [show ({} : EndX.ScanState) = ⟨none, none⟩ from rfl,
      scanResponses_eq spec preferred track rs none]
    rfl
  refine ⟨h1, rfl, fun rs => h1 rs, ?_, ?_, ?_⟩
  · intro rs
    unfold EndX.scanSpecified
    rw [List.filter_filter]
    have hpred : (fun (a : String × EndX.RespNode) =>
        JsStr.jsStartsWith a.1 "2" && JsStr.jsStartsWith a.1 "2") =
        (fun a => JsStr.jsStartsWith a.1 "2") := by
      funext a
      exact Bool.and_self _
    rw [hpred]
  · intro htk rs
    rw [h1 rs]
    subst htk
    simp only [EndX.scanSpecified]
    split <;> rfl
  · intro entry hc htk
    subst htk
    unfold EndX.entryTrigger
    simp [hc]

/-- Witness for C5 (amended) at concrete inputs: a `200` JSON response
with a string schema yields `successResponseType "string"` (and no status
code with tracking off), and with tracking off no status code is ever
recorded. -/
theorem scan_c5_w :
    EndX.extractSuccessResponse ({} : RefR.Components EndX.Resp) ["application/json"] false
        (some [("200", RefR.RNode.val { content := some [("application/json",
          { schema := some (EndX.SchemaLike.mk none (some EndX.STy.str) none none none) })] })]) =
      { srt := some "string", ssc := none } ∧
    (EndX.scanResponses ({} : RefR.Components EndX.Resp) ["application/json"] false
        [("404", RefR.RNode.val { content := none })] {}).ssc = none := by
  constructor
  · rw [(scan_c5_amended ({} : RefR.Components EndX.Resp) ["application/json"] false).2.2.1]
    rfl
  · exact (scan_c5_amended ({} : RefR.Components EndX.Resp) ["application/json"] false).2.2.2.2.1
      rfl _

/-- C5 is refuted as stated: with status tracking enabled and a
content-less `204` entry iterated before a `200` entry carrying an
inspectable string schema, the code stops at the `204` with
`successResponseType "void"`, although the claim says the first entry
with an inspectable schema (the `200`, type `"string"`) determines the
success type. -/
theorem scan_c5_cx :
    EndX.extractSuccessResponse ({} : RefR.Components EndX.Resp) ["application/json"] true
        (some [("204", RefR.RNode.val { content := none }),
               ("200", RefR.RNode.val { content := some [("application/json",
                 { schema := some (EndX.SchemaLike.mk none (some EndX.STy.str) none none none) })] })]) =
      { srt := some "void", ssc := some 204 } ∧
    EndX.entryTrigger ({} : RefR.Components EndX.Resp) ["application/json"] true
        ("200", RefR.RNode.val { content := some [("application/json",
          { schema := some (EndX.SchemaLike.mk none (some EndX.STy.str) none none none) })] }) =
      some "string" ∧
    some "void" ≠ some "string" := by
  refine ⟨rfl, rfl, by decide⟩

/-- The decimal printer is fuel-irrelevant once the fuel exceeds the
number. -/
theorem decDigitsAux_fuel : ∀ (n f1 f2 : Nat), n < f1 → n < f2 →
    JsStr.decDigitsAux f1 n = JsStr.decDigitsAux f2 n := by
  intro n
  induction n using Nat.strong_induction_on with
  | _ n ih =>
    intro f1 f2 h1 h2
    rcases f1 with _ | g1
    · omega
    rcases f2 with _ | g2
    · omega
    rcases hn : decide (n < 10) with _ | _
    · have hn2 : ¬ n < 10 := of_decide_eq_false hn
      show (if n < 10 then _ else JsStr.decDigitsAux g1 (n / 10) ++ _) =
        (if n < 10 then _ else JsStr.decDigitsAux g2 (n / 10) ++ _)
      rw [if_neg hn2, if_neg hn2]
      have hdiv : n / 10 < n := Nat.div_lt_self (by omega) (by omega)
      rw [ih (n / 10) hdiv g1 g2 (by omega) (by omega)]
    · have hn2 : n < 10 := of_decide_eq_true hn
      show (if n < 10 then _ else _) = (if n < 10 then _ else _)
      rw [if_pos hn2, if_pos hn2]

/-- Folding the digit value over an appended digit. -/
theorem valOfDigits_append (l : List Char) (c : Char) :
    JsStr.valOfDigits (l ++ [c]) = JsStr.valOfDigits l * 10 + (c.toNat - 48) := by
  unfold JsStr.valOfDigits
  rw [List.foldl_append]
  rfl

/-- Digit characters decode back to their value. -/
theorem digitChar_val : ∀ m, m < 10 → (Nat.digitChar m).toNat - 48 = m := by
  intro m h
  interval_cases m <;> rfl

/-- The decimal printer round-trips through the digit value. -/
theorem valOf_decRepr : ∀ n, JsStr.valOfDigits (JsStr.decDigitsAux (n + 1) n) = n := by
  intro n
  induction n using Nat.strong_induction_on with
  | _ n ih =>
    rcases hn : decide (n < 10) with _ | _
    · have hn2 : ¬ n < 10 := of_decide_eq_false hn
      have hstep : JsStr.decDigitsAux (n + 1) n =
          JsStr.decDigitsAux n (n / 10) ++ [JsStr.decDigitChar (n % 10)] := by
        show (if n < 10 then _ else _) = _
        rw [if_neg hn2]
      have hdiv : n / 10 < n := Nat.div_lt_self (by omega) (by omega)
      rw [hstep, decDigitsAux_fuel (n / 10) n (n / 10 + 1) (by omega) (by omega),
        valOfDigits_append, ih (n / 10) hdiv]
      rw [show JsStr.decDigitChar (n % 10) = Nat.digitChar (n % 10) from rfl]
      rw [digitChar_val (n % 10) (Nat.mod_lt _ (by omega))]
      omega
    · have hn2 : n < 10 := of_decide_eq_true hn
      have hstep : JsStr.decDigitsAux (n + 1) n = [JsStr.decDigitChar n] := by
        show (if n < 10 then _ else _) = _
        rw [if_pos hn2]
      rw [hstep]
      show JsStr.valOfDigits [Nat.digitChar n] = n
      unfold JsStr.valOfDigits
      simp only [List.foldl_cons, List.foldl_nil]
      rw [Nat.zero_mul, Nat.zero_add]
      exact digitChar_val n hn2

/-- The decimal printer is injective. -/
theorem decRepr_inj : ∀ a b, JsStr.decRepr a = JsStr.decRepr b → a = b := by
  intro a b h
  have h2 : JsStr.decDigitsAux (a + 1) a = JsStr.decDigitsAux (b + 1) b :=
    congrArg String.toList h
  have h3 := valOf_decRepr a
  rw [h2, valOf_decRepr b] at h3
  exact h3.symm

/-- The decimal printer never yields the empty string. -/
theorem decRepr_ne_empty : ∀ n, JsStr.decRepr n ≠ "" := by
  intro n h
  have h2 : JsStr.decDigitsAux (n + 1) n = [] := congrArg String.toList h
  rcases hn : decide (n < 10) with _ | _
  · have hn2 : ¬ n < 10 := of_decide_eq_false hn
    have hstep : JsStr.decDigitsAux (n + 1) n =
        JsStr.decDigitsAux n (n / 10) ++ [JsStr.decDigitChar (n % 10)] := by
      show (if n < 10 then _ else _) = _
      rw [if_neg hn2]
    rw [hstep] at h2
    exact absurd h2 (by simp)
  · have hn2 : n < 10 := of_decide_eq_true hn
    have hstep : JsStr.decDigitsAux (n + 1) n = [JsStr.decDigitChar n] := by
      show (if n < 10 then _ else _) = _
      rw [if_pos hn2]
    rw [hstep] at h2
    exact absurd h2 (by simp)

/-- Appending distinct decimal suffixes to one key yields distinct
strings. -/
theorem keyCand_inj (key : String) : ∀ a b,
    key ++ JsStr.decRepr a = key ++ JsStr.decRepr b → a = b := by
  intro a b h
  have h2 : (key ++ JsStr.decRepr a).data = (key ++ JsStr.decRepr b).data :=
    congrArg String.data h
  rw [String.data_append key (JsStr.decRepr a), String.data_append key (JsStr.decRepr b)] at h2
  have h3 := List.append_cancel_left h2
  exact decRepr_inj a b (String.ext h3)

/-- Among `used.length + 1` consecutive candidates at least one is free. -/
theorem exists_free_cand (key : String) (used : List String) (c0 : Nat) :
    ∃ i, i ≤ used.length ∧ key ++ JsStr.decRepr (c0 + i) ∉ used := by
  by_contra hall
  push_neg at hall
  have hmem : ∀ i ≤ used.length, key ++ JsStr.decRepr (c0 + i) ∈ used := hall
  have hinj : ∀ i j, key ++ JsStr.decRepr (c0 + i) = key ++ JsStr.decRepr (c0 + j) → i = j := by
    intro i j h
    have := keyCand_inj key _ _ h
    omega
  have hnodup : ((List.range (used.length + 1)).map
      (fun i => key ++ JsStr.decRepr (c0 + i))).Nodup := by
    refine List.Nodup.map_on ?_ (List.nodup_range _)
    intro i _ j _ h
    exact hinj i j h
  have hsub : ((List.range (used.length + 1)).map
      (fun i => key ++ JsStr.decRepr (c0 + i))).toFinset ⊆ used.toFinset := by
    intro x hx
    rw [List.mem_toFinset] at hx
    rcases List.mem_map.mp hx with ⟨i, hi, rfl⟩
    rw [List.mem_toFinset]
    exact hmem i (by have h5 := List.mem_range.mp hi; omega)
  have hc1 : ((List.range (used.length + 1)).map
      (fun i => key ++ JsStr.decRepr (c0 + i))).toFinset.card = used.length + 1 := by
    rw [List.toFinset_card_of_nodup hnodup, List.length_map, List.length_range]
  have hc2 := Finset.card_le_card hsub
  have hc3 := List.toFinset_card_le used
  omega

/-- The collision loop returns the first free suffixed candidate, given
that a free candidate lies within the fuel. -/
theorem registerKeyLoop_spec (key : String) (used : List String) :
    ∀ (fuel counter : Nat), (∃ i, i < fuel ∧ key ++ JsStr.decRepr (counter + i) ∉ used) →
      EnumU.registerKeyLoop key used fuel counter ∉ used ∧
      ∃ c, counter ≤ c ∧ EnumU.registerKeyLoop key used fuel counter =
        key ++ JsStr.decRepr c := by
  intro fuel
  induction fuel with
  | zero =>
    intro counter h
    obtain ⟨i, hi, _⟩ := h
    omega
  | succ fuel ih =>
    intro counter h
    show (if key ++ JsStr.decRepr counter ∈ used then _ else _) ∉ used ∧ _
    rcases hc : decide (key ++ JsStr.decRepr counter ∈ used) with _ | _
    · have hc2 : key ++ JsStr.decRepr counter ∉ used := of_decide_eq_false hc
      constructor
      · show (if key ++ JsStr.decRepr counter ∈ used then _ else key ++ JsStr.decRepr counter) ∉ used
        rw [if_neg hc2]
        exact hc2
      · refine ⟨counter, le_refl _, ?_⟩
        show (if key ++ JsStr.decRepr counter ∈ used then _ else key ++ JsStr.decRepr counter) = _
        rw [if_neg hc2]
    · have hc2 : key ++ JsStr.decRepr counter ∈ used := of_decide_eq_true hc
      obtain ⟨i, hi, hfree⟩ := h
      have hi0 : i ≠ 0 := by
        intro h0
        rw [h0, Nat.add_zero] at hfree
        exact hfree hc2
      have hnew : ∃ j, j < fuel ∧ key ++ JsStr.decRepr (counter + 1 + j) ∉ used := by
        refine ⟨i - 1, by omega, ?_⟩
        have : counter + 1 + (i - 1) = counter + i := by omega
        rw [this]
        exact hfree
      obtain ⟨hmem, c, hcle, heq⟩ := ih (counter + 1) hnew
      constructor
      · show (if key ++ JsStr.decRepr counter ∈ used then
            EnumU.registerKeyLoop key used fuel (counter + 1) else _) ∉ used
        rw [if_pos hc2]
        exact hmem
      · refine ⟨c, by omega, ?_⟩
        show (if key ++ JsStr.decRepr counter ∈ used then
            EnumU.registerKeyLoop key used fuel (counter + 1) else _) = _
        rw [if_pos hc2]
        exact heq

/-- `registerKey` returns a key not yet used, registers it, and the
result is the base key or the base key with a decimal suffix at least 2. -/
theorem registerKey_spec (key : String) (used : List String) :
    (EnumU.registerKey key used).1 ∉ used ∧
    (EnumU.registerKey key used).2 = used ++ [(EnumU.registerKey key used).1] ∧
    ((EnumU.registerKey key used).1 = key ∨
      ∃ c, 2 ≤ c ∧ (EnumU.registerKey key used).1 = key ++ JsStr.decRepr c) := by
  rcases hk : decide (key ∈ used) with _ | _
  · have hk2 : key ∉ used := of_decide_eq_false hk
    have hval : EnumU.registerKey key used = (key, used ++ [key]) := by
      simp only [EnumU.registerKey, if_neg hk2]
    rw [hval]
    exact ⟨hk2, rfl, Or.inl rfl⟩
  · have hk2 : key ∈ used := of_decide_eq_true hk
    obtain ⟨i, hile, hfree⟩ := exists_free_cand key used 2
    obtain ⟨hmem, c, hcle, heq⟩ :=
      registerKeyLoop_spec key used (used.length + 1) 2 ⟨i, by omega, hfree⟩
    have hval : EnumU.registerKey key used =
        (EnumU.registerKeyLoop key used (used.length + 1) 2,
         used ++ [EnumU.registerKeyLoop key used (used.length + 1) 2]) := by
      simp only [EnumU.registerKey, if_pos hk2]
    rw [hval]
    exact ⟨hmem, rfl, Or.inr ⟨c, hcle, heq⟩⟩

/-- Core invariant of a conversion pass: processed outputs extend the
used-key set exactly, are pairwise distinct, avoid the initial set, and
each output is the entry's base identifier possibly with a numeric
suffix starting at 2. -/
theorem processEnum_core : ∀ (xs used0 : List String),
    (EnumU.processEnumValues xs used0).2 = used0 ++ (EnumU.processEnumValues xs used0).1 ∧
    (EnumU.processEnumValues xs used0).1.Nodup ∧
    (∀ o ∈ (EnumU.processEnumValues xs used0).1, o ∉ used0) ∧
    List.Forall₂ (fun v o => o = EnumU.baseEnumKey v ∨
      ∃ c, 2 ≤ c ∧ o = EnumU.baseEnumKey v ++ JsStr.decRepr c) xs
      (EnumU.processEnumValues xs used0).1 := by
  intro xs
  induction xs with
  | nil =>
    intro used0
    refine ⟨?_, ?_, ?_, ?_⟩ <;> simp [EnumU.processEnumValues]
  | cons v vs ih =>
    intro used0
    obtain ⟨hreg1, hreg2, hreg3⟩ := registerKey_spec (EnumU.baseEnumKey v) used0
    rcases hreg : EnumU.registerKey (EnumU.baseEnumKey v) used0 with ⟨out, used1⟩
    rw [hreg] at hreg1 hreg2 hreg3
    simp only at hreg1 hreg2 hreg3
    have hstep : EnumU.processEnumValues (v :: vs) used0 =
        (out :: (EnumU.processEnumValues vs used1).1, (EnumU.processEnumValues vs used1).2) := by
      simp only [EnumU.processEnumValues, EnumU.stringToEnumMember, hreg]
    obtain ⟨ih1, ih2, ih3, ih4⟩ := ih used1
    rw [hstep]
    simp only
    refine ⟨?_, ?_, ?_, ?_⟩
    · rw [ih1, hreg2]
      simp
    · rw [List.nodup_cons]
      refine ⟨?_, ih2⟩
      intro hmem
      have h5 := ih3 _ hmem
      rw [hreg2] at h5
      exact h5 (by simp)
    · intro o ho
      rcases List.mem_cons.mp ho with rfl | ho2
      · exact hreg1
      · have h5 := ih3 o ho2
        rw [hreg2] at h5
        intro hmem
        exact h5 (by simp [hmem])
    · exact List.Forall₂.cons hreg3 ih4

/-- C4: converting a sequence of enum values with one shared `usedKeys`
set is deterministic (a pure function of the sequence and initial set),
never emits an identifier already used or two identical identifiers
within the call; each emitted identifier is the value's base name —
leading `-`/`+` stripped with `Desc`/`Asc` appended, remainder
PascalCased, leading digit prefixed — or that base name with an
incrementing numeric suffix starting at 2 on collision; in particular
`["foo_bar", "foo-bar", "FooBar"]` yields three pairwise-distinct
identifiers. -/
theorem stringToEnumMember_c4 (xs used0 : List String) :
    (EnumU.processEnumValues xs used0).2 = used0 ++ (EnumU.processEnumValues xs used0).1 ∧
    (EnumU.processEnumValues xs used0).1.Nodup ∧
    (∀ o ∈ (EnumU.processEnumValues xs used0).1, o ∉ used0) ∧
    List.Forall₂ (fun v o => o = EnumU.baseEnumKey v ∨
      ∃ c, 2 ≤ c ∧ o = EnumU.baseEnumKey v ++ JsStr.decRepr c) xs
      (EnumU.processEnumValues xs used0).1 ∧
    (∀ v, JsStr.jsStartsWith v "-" = true → JsStr.jsDrop 1 v ≠ "" →
      EnumU.baseEnumKey v = EnumU.pascalFixed (JsStr.jsDrop 1 v) ++ "Desc") ∧
    (∀ v, JsStr.jsStartsWith v "+" = true → JsStr.jsDrop 1 v ≠ "" →
      EnumU.baseEnumKey v = EnumU.pascalFixed (JsStr.jsDrop 1 v) ++ "Asc") ∧
    (EnumU.processEnumValues ["foo_bar", "foo-bar", "FooBar"] []).1 =
      ["FooBar", "FooBar2", "Foobar"] ∧
    (EnumU.processEnumValues ["foo_bar", "foo-bar", "FooBar"] []).1.Nodup := by
  obtain ⟨h1, h2, h3, h4⟩ := processEnum_core xs used0
  refine ⟨h1, h2, h3, h4, ?_, ?_, by decide, by decide⟩
  · intro v hm hne
    have hvne : v ≠ "" := by
      intro h0
      rw [h0] at hm
      exact absurd hm (by decide)
    simp [EnumU.baseEnumKey, EnumU.pascalFixed, hvne, hm, hne]
  · intro v hp hne
    have hvne : v ≠ "" := by
      intro h0
      rw [h0] at hp
      exact absurd hp (by decide)
    have hm : JsStr.jsStartsWith v "-" = false := by
      unfold JsStr.jsStartsWith at hp ⊢
      rcases hv : v.toList with _ | ⟨c0, cs⟩
      · rw [hv] at hp
        simp [List.isPrefixOf] at hp
      · rw [hv] at hp
        have hc0 : ('+' : Char) = c0 := by
          simpa [List.isPrefixOf] using hp
        simp [List.isPrefixOf, ← hc0]
    simp [EnumU.baseEnumKey, EnumU.pascalFixed, hvne, hp, hm, hne]

/-- Witness for C4 at concrete values: the sort-order prefixes produce
`Desc`/`Asc` suffixed PascalCase identifiers, and the spec's example
sequence gives pairwise distinct identifiers. -/
theorem stringToEnumMember_c4_w :
    EnumU.baseEnumKey "-name" = "NameDesc" ∧
    EnumU.baseEnumKey "+name" = "NameAsc" ∧
    (EnumU.processEnumValues ["foo_bar", "foo-bar", "FooBar"] []).1.Nodup := by
  have h := stringToEnumMember_c4 [] []
  refine ⟨?_, ?_, h.2.2.2.2.2.2.2⟩
  · have h5 := h.2.2.2.2.1 "-name" (by decide) (by decide)
    rw [h5]
    decide
  · have h6 := h.2.2.2.2.2.1 "+name" (by decide) (by decide)
    rw [h6]
    decide

namespace CondV

theorem goDeps_errorsMono (g : Graph) (detect : String → St → Bool × St) (name : String)
    (hdet : ∀ p s, ∃ t, ((detect p s).2).errors = s.errors ++ t) :
    ∀ ds s, ∃ t, ((goDeps g detect name ds s).2).errors = s.errors ++ t := by
  intro ds
  induction ds with
  | nil => intro s; exact ⟨[], by simp [goDeps]⟩
  | cons dep rest ih =>
    intro s
    by_cases h1 : dep ∈ s.visited
    · by_cases h2 : dep ∈ s.recStack
      · refine ⟨[cycleError name (s.path.drop (s.path.indexOf dep) ++ [dep])], ?_⟩
        simp [goDeps, h1, h2]
      · obtain ⟨t, ht⟩ := ih s
        refine ⟨t, ?_⟩
        simpa [goDeps, h1, h2] using ht
    · rcases hd : detect dep s with ⟨b, s2⟩
      obtain ⟨t1, ht1⟩ := hdet dep s
      rw [hd] at ht1
      cases b with
      | true =>
        refine ⟨t1, ?_⟩
        simpa [goDeps, h1, hd] using ht1
      | false =>
        obtain ⟨t2, ht2⟩ := ih s2
        refine ⟨t1 ++ t2, ?_⟩
        simp only [goDeps, hd]
        rw [if_pos h1]
        show (goDeps g detect name rest s2).2.errors = s.errors ++ (t1 ++ t2)
        rw [ht2, show s2.errors = s.errors ++ t1 from ht1, List.append_assoc]

theorem errorsMono (g : Graph) (name : String) :
    ∀ fuel p s, ∃ t, ((detectCycle g name fuel p s).2).errors = s.errors ++ t := by
  intro fuel
  induction fuel with
  | zero => intro p s; exact ⟨[], by simp [detectCycle]⟩
  | succ fuel hI =>
    intro p s
    rcases hg : goDeps g (fun d s2 => detectCycle g name fuel d s2) name (graphGet g p)
        ⟨setAdd s.visited p, setAdd s.recStack p, s.path ++ [p], s.errors⟩ with ⟨b, s3⟩
    obtain ⟨t, ht⟩ := goDeps_errorsMono g (fun d s2 => detectCycle g name fuel d s2) name
        hI (graphGet g p)
        ⟨setAdd s.visited p, setAdd s.recStack p, s.path ++ [p], s.errors⟩
    rw [hg] at ht
    cases b with
    | true => exact ⟨t, by simpa [detectCycle, hg] using ht⟩
    | false => exact ⟨t, by simpa [detectCycle, hg] using ht⟩

end CondV
namespace CondV

theorem lookup_mem {g : Graph} {k : String} {vs : List String}
    (h : g.lookup k = some vs) : (k, vs) ∈ g := by
  induction g with
  | nil => simp [List.lookup] at h
  | cons e rest ih =>
    rcases e with ⟨k1, v1⟩
    by_cases hk : k = k1
    · subst hk
      simp [List.lookup] at h
      simp [h]
    · have hb : (k == k1) = false := beq_eq_false_iff_ne.mpr hk
      rw [List.lookup, hb] at h
      exact List.mem_cons_of_mem _ (ih h)

theorem mem_nodesOf {g : Graph} {v : String} :
    v ∈ nodesOf g ↔ ∃ e ∈ g, v = e.1 ∨ v ∈ e.2 := by
  induction g with
  | nil => simp [nodesOf]
  | cons e rest ih =>
    have hstep : nodesOf (e :: rest) = e.1 :: (e.2 ++ nodesOf rest) := rfl
    rw [hstep]
    simp only [List.mem_cons, List.mem_append, ih]
    constructor
    · rintro (h1 | h2 | ⟨e2, he2, h3⟩)
      · exact ⟨e, Or.inl rfl, Or.inl h1⟩
      · exact ⟨e, Or.inl rfl, Or.inr h2⟩
      · exact ⟨e2, Or.inr he2, h3⟩
    · rintro ⟨e2, he2, h3⟩
      rcases he2 with rfl | hm
      · rcases h3 with h3 | h3
        · exact Or.inl h3
        · exact Or.inr (Or.inl h3)
      · exact Or.inr (Or.inr ⟨e2, hm, h3⟩)

theorem edge_src (g : Graph) (u v : String) (h : isEdge g u v) :
    ∃ vs, g.lookup u = some vs ∧ v ∈ vs := by
  unfold isEdge graphGet at h
  rcases hl : g.lookup u with _ | vs
  · rw [hl] at h; simp at h
  · rw [hl] at h; exact ⟨vs, rfl, h⟩

theorem graphGet_subset_nodes (g : Graph) (k d : String) (hd : d ∈ graphGet g k) :
    d ∈ nodesOf g := by
  obtain ⟨vs, hl, hv⟩ := edge_src g k d hd
  exact mem_nodesOf.mpr ⟨(k, vs), lookup_mem hl, Or.inr hv⟩

theorem safe_of_deps_safe (g : Graph) (u : String)
    (h : ∀ d ∈ graphGet g u, Safe g d) : Safe g u := by
  rintro ⟨w, hr, hc⟩
  rcases Relation.ReflTransGen.cases_head hr with heq | ⟨d, hud, hdw⟩
  · subst heq
    rcases Relation.TransGen.head'_iff.mp hc with ⟨d, hud, hdu⟩
    exact h d hud ⟨u, hdu, hc⟩
  · exact h d hud ⟨w, hdw, hc⟩

theorem pathOk_transGen (g : Graph) :
    ∀ (l : List String) (u v : String), pathOk g u (l ++ [v]) →
      Relation.TransGen (fun a b => isEdge g a b) u v := by
  intro l
  induction l with
  | nil => intro u v h; exact Relation.TransGen.single h.1
  | cons w l ih =>
    intro u v h
    exact Relation.TransGen.head h.1 (ih w v h.2)

theorem cyclic_of_isCycleList (g : Graph) (v : String) (l : List String)
    (h : IsCycleList g v l) : Cyclic g :=
  ⟨v, pathOk_transGen g l v v h⟩

theorem not_cyclic_single (g : Graph) (a b : String) (hab : a ≠ b)
    (hE : ∀ u w, isEdge g u w → u = a ∧ w = b) : ¬ Cyclic g := by
  rintro ⟨v, hv⟩
  rcases Relation.TransGen.head'_iff.mp hv with ⟨x, hvx, hxv⟩
  obtain ⟨hva, hxb⟩ := hE v x hvx
  rcases Relation.ReflTransGen.cases_head hxv with heq | ⟨c, hbc, _⟩
  · exact hab (hva.symm.trans (heq.symm.trans hxb))
  · exact hab (((hE x c hbc).1).symm.trans hxb)

theorem drop_indexOf {l : List String} {d : String} (h : d ∈ l) :
    ∃ l1 l2, l = l1 ++ d :: l2 ∧ l.drop (l.indexOf d) = d :: l2 := by
  induction l with
  | nil => cases h
  | cons x rest ih =>
    by_cases hx : x = d
    · subst hx
      exact ⟨[], rest, by simp, by simp [List.indexOf_cons_self]⟩
    · rcases List.mem_cons.mp h with heq | hmem
      · exact absurd heq.symm hx
      · obtain ⟨l1, l2, he, hdrop⟩ := ih hmem
        refine ⟨x :: l1, l2, by simp [he], ?_⟩
        rw [List.indexOf_cons_ne _ (fun hh => hx (by simpa using hh))]
        simpa using hdrop

theorem chainList_mid (g : Graph) :
    ∀ (l1 : List String) (d : String) (l2 : List String),
      chainList g (l1 ++ d :: l2) → pathOk g d l2 := by
  have haux : ∀ (l1 : List String) (u : String) (d : String) (l2 : List String),
      pathOk g u (l1 ++ d :: l2) → pathOk g d l2 := by
    intro l1
    induction l1 with
    | nil => intro u d l2 h; exact h.2
    | cons x l ih => intro u d l2 h; exact ih x d l2 h.2
  intro l1 d l2 h
  cases l1 with
  | nil => exact h
  | cons x l => exact haux l x d l2 h

theorem suffix_ends :
    ∀ (l1 : List String) (d : String) (l2 l0 : List String) (p : String),
      l1 ++ d :: l2 = l0 ++ [p] → ∃ l3, d :: l2 = l3 ++ [p] := by
  intro l1 d l2 l0 p h
  rcases List.eq_nil_or_concat l2 with h2 | ⟨l2h, a, h2⟩
  · subst h2
    have hh : (l1 ++ [d]).getLast? = (l0 ++ [p]).getLast? := by rw [h]
    rw [List.getLast?_concat, List.getLast?_concat] at hh
    have hdp : d = p := by simpa using hh
    exact ⟨[], by simp [hdp]⟩
  · rw [List.concat_eq_append] at h2
    subst h2
    have hh : (l1 ++ d :: (l2h ++ [a])).getLast? = (l0 ++ [p]).getLast? := by rw [h]
    have hsh : l1 ++ d :: (l2h ++ [a]) = (l1 ++ d :: l2h) ++ [a] := by simp
    rw [hsh, List.getLast?_concat, List.getLast?_concat] at hh
    have hap : a = p := by simpa using hh
    subst hap
    exact ⟨d :: l2h, by simp⟩

theorem pathOk_snoc (g : Graph) :
    ∀ (l3 : List String) (u : String) (l : List String) (p w : String),
      u :: l = l3 ++ [p] → pathOk g u l → isEdge g p w → pathOk g u (l ++ [w]) := by
  intro l3
  induction l3 with
  | nil =>
    intro u l p w he hp hw
    simp only [List.nil_append] at he
    obtain ⟨hu, hl⟩ : u = p ∧ l = [] := by
      constructor
      · exact (List.cons.injEq u l p []).mp he |>.1
      · exact (List.cons.injEq u l p []).mp he |>.2
    subst hu; subst hl
    exact ⟨hw, trivial⟩
  | cons x l3t ih =>
    intro u l p w he hp hw
    simp only [List.cons_append, List.cons.injEq] at he
    obtain ⟨hux, hl⟩ := he
    cases l with
    | nil => exact absurd hl.symm (by simp)
    | cons v lt =>
      exact ⟨hp.1, ih v lt p w hl hp.2 hw⟩

theorem filter_len_mono {α : Type} (p q : α → Bool) (h : ∀ x, p x = true → q x = true) :
    ∀ l : List α, (l.filter p).length ≤ (l.filter q).length := by
  intro l
  induction l with
  | nil => simp
  | cons x rest ih =>
    by_cases hp : p x = true
    · have hq := h x hp
      rw [List.filter_cons, if_pos hp, List.filter_cons, if_pos hq]
      exact Nat.succ_le_succ ih
    · rw [List.filter_cons, if_neg hp]
      by_cases hq : q x = true
      · rw [List.filter_cons, if_pos hq]
        exact Nat.le_trans ih (Nat.le_succ _)
      · rw [List.filter_cons, if_neg hq]
        exact ih

theorem filter_len_lt {α : Type} (p q : α → Bool) (h : ∀ x, p x = true → q x = true)
    (a : α) (hq : q a = true) (hp : p a = false) :
    ∀ l : List α, a ∈ l → (l.filter p).length < (l.filter q).length := by
  intro l hl
  induction l with
  | nil => cases hl
  | cons x rest ih =>
    rcases List.mem_cons.mp hl with rfl | hmem
    · rw [List.filter_cons, if_neg (by simp [hp]), List.filter_cons, if_pos hq]
      exact Nat.lt_succ_of_le (filter_len_mono p q h rest)
    · by_cases hx : p x = true
      · have hqx := h x hx
        rw [List.filter_cons, if_pos hx, List.filter_cons, if_pos hqx]
        exact Nat.succ_lt_succ (ih hmem)
      · rw [List.filter_cons, if_neg hx]
        by_cases hqx : q x = true
        · rw [List.filter_cons, if_pos hqx]
          exact Nat.lt_trans (ih hmem) (Nat.lt_succ_self _)
        · rw [List.filter_cons, if_neg hqx]
          exact ih hmem

theorem remaining_le_of_visited_mono (g : Graph) (s s2 : St)
    (h : ∀ v ∈ s.visited, v ∈ s2.visited) : remaining g s2 ≤ remaining g s := by
  unfold remaining
  apply filter_len_mono
  intro x hx
  simp only [decide_eq_true_eq] at hx ⊢
  exact fun hmem => hx (h x hmem)

theorem remaining_le_nodes (g : Graph) (s : St) : remaining g s ≤ (nodesOf g).length :=
  List.length_filter_le _ _

end CondV
namespace CondV

theorem chainList_snoc (g : Graph) (l : List String) (p w : String)
    (h : chainList g (l ++ [p])) (he : isEdge g p w) :
    chainList g (l ++ [p] ++ [w]) := by
  cases l with
  | nil => exact ⟨he, trivial⟩
  | cons x lt =>
    show pathOk g x ((lt ++ [p]) ++ [w])
    exact pathOk_snoc g (x :: lt) x (lt ++ [p]) p w (by simp) h he

theorem remaining_push_lt (g : Graph) (s : St) (p : String)
    (hpn : p ∈ nodesOf g) (hpv : p ∉ s.visited) (s1 : St)
    (hvis : s1.visited = s.visited ++ [p]) : remaining g s1 < remaining g s := by
  unfold remaining
  apply filter_len_lt _ _ _ p
  · simp [hpv]
  · simp [hvis]
  · exact hpn
  · intro x hx
    simp only [decide_eq_true_eq, hvis, List.mem_append] at hx ⊢
    exact fun hmem => hx (Or.inl hmem)

theorem goDeps_main (g : Graph) (name : String) (detect : String → St → Bool × St) (N : Nat)
    (hdet : ∀ p s, p ∈ nodesOf g → p ∉ s.visited → Coherent g s →
      chainList g (s.path ++ [p]) → remaining g s < N →
      ∀ b s2, detect p s = (b, s2) →
        (b = false →
          s2.errors = [] ∧ s2.recStack = s.recStack ∧ s2.path = s.path ∧
          (∀ v ∈ s.visited, v ∈ s2.visited) ∧ p ∈ s2.visited ∧
          (∀ v ∈ s2.visited, v ∈ nodesOf g) ∧
          (∀ v ∈ s2.visited, v ∉ s.path → Safe g v)) ∧
        (b = true →
          ∃ v l, IsCycleList g v l ∧ s2.errors = [cycleError name (v :: l ++ [v])])) :
    ∀ ds prop s l0, s.path = l0 ++ [prop] →
      (∀ d ∈ ds, isEdge g prop d) → Coherent g s → remaining g s < N →
      ∀ b s2, goDeps g detect name ds s = (b, s2) →
        (b = false →
          s2.errors = [] ∧ s2.recStack = s.recStack ∧ s2.path = s.path ∧
          (∀ v ∈ s.visited, v ∈ s2.visited) ∧
          (∀ d ∈ ds, d ∈ s2.visited ∧ d ∉ s.path) ∧
          (∀ v ∈ s2.visited, v ∈ nodesOf g) ∧
          (∀ v ∈ s2.visited, v ∉ s.path → Safe g v)) ∧
        (b = true →
          ∃ v l, IsCycleList g v l ∧ s2.errors = [cycleError name (v :: l ++ [v])]) := by
  intro ds
  induction ds with
  | nil =>
    intro prop s l0 hpath hE hco hlt b s2 hd
    simp only [goDeps] at hd
    rw [Prod.mk.injEq] at hd
    obtain ⟨rfl, rfl⟩ := hd
    constructor
    · intro _
      exact ⟨hco.1, rfl, rfl, fun v hv => hv, fun d hdm => absurd hdm (List.not_mem_nil d),
        hco.2.2.2.2.1, hco.2.2.2.2.2⟩
    · intro hf; cases hf
  | cons dep rest ih =>
    intro prop s l0 hpath hE hco hlt b s2 hd
    obtain ⟨hE0, hRS, hCH, hPV, hVN, hSI⟩ := hco
    have hedge : isEdge g prop dep := hE dep (List.mem_cons_self _ _)
    simp only [goDeps] at hd
    by_cases h1 : dep ∈ s.visited
    · rw [if_neg (fun hh => hh h1)] at hd
      by_cases h2 : dep ∈ s.recStack
      · rw [if_pos h2] at hd
        rw [Prod.mk.injEq] at hd
        obtain ⟨rfl, rfl⟩ := hd
        constructor
        · intro hf; cases hf
        intro _
        have hdep_path : dep ∈ s.path := by rw [← hRS]; exact h2
        obtain ⟨l1, l2, hsplit, hdrop⟩ := drop_indexOf hdep_path
        have hCH2 := hCH
        rw [hsplit] at hCH2
        have hpode : pathOk g dep l2 := chainList_mid g l1 dep l2 hCH2
        obtain ⟨l3, hl3⟩ := suffix_ends l1 dep l2 l0 prop (by rw [← hsplit, hpath])
        have hcyc : pathOk g dep (l2 ++ [dep]) :=
          pathOk_snoc g l3 dep l2 prop dep hl3 hpode hedge
        refine ⟨dep, l2, hcyc, ?_⟩
        show s.errors ++ [cycleError name (s.path.drop (s.path.indexOf dep) ++ [dep])] = _
        rw [hE0, hdrop]
        simp
      · rw [if_neg h2] at hd
        have hres := ih prop s l0 hpath (fun d hd2 => hE d (List.mem_cons_of_mem _ hd2))
          ⟨hE0, hRS, hCH, hPV, hVN, hSI⟩ hlt b s2 hd
        constructor
        · intro hb
          obtain ⟨c1, c2, c3, c4, c5, c6, c7⟩ := hres.1 hb
          refine ⟨c1, c2, c3, c4, ?_, c6, c7⟩
          intro d hdm
          rcases List.mem_cons.mp hdm with rfl | hdm2
          · refine ⟨c4 d h1, ?_⟩
            rw [← hRS]; exact h2
          · exact c5 d hdm2
        · exact hres.2
    · rw [if_pos h1] at hd
      rcases hdc : detect dep s with ⟨b1, s1⟩
      rw [hdc] at hd
      have hdn : dep ∈ nodesOf g := graphGet_subset_nodes g prop dep hedge
      have hch1 : chainList g (s.path ++ [dep]) := by
        rw [hpath]
        exact chainList_snoc g l0 prop dep (by rw [← hpath]; exact hCH) hedge
      have hPdep := hdet dep s hdn h1 ⟨hE0, hRS, hCH, hPV, hVN, hSI⟩ hch1 hlt b1 s1 hdc
      cases b1 with
      | true =>
        have hd2 : ((true : Bool), s1) = (b, s2) := hd
        rw [Prod.mk.injEq] at hd2
        obtain ⟨rfl, rfl⟩ := hd2
        constructor
        · intro hf; cases hf
        · intro _; exact hPdep.2 rfl
      | false =>
        have hd2 : goDeps g detect name rest s1 = (b, s2) := hd
        obtain ⟨c1, c2, c3, c4, c5, c6, c7⟩ := hPdep.1 rfl
        have hco1 : Coherent g s1 := by
          refine ⟨c1, ?_, ?_, ?_, c6, ?_⟩
          · rw [c2, c3, hRS]
          · rw [c3]; exact hCH
          · intro v hv
            rw [c3] at hv
            exact c4 v (hPV v hv)
          · intro v hv hvp
            rw [c3] at hvp
            exact c7 v hv hvp
        have hrem1 : remaining g s1 < N :=
          Nat.lt_of_le_of_lt (remaining_le_of_visited_mono g s s1 c4) hlt
        have hres := ih prop s1 l0 (by rw [c3]; exact hpath)
          (fun d hd3 => hE d (List.mem_cons_of_mem _ hd3)) hco1 hrem1 b s2 hd2
        constructor
        · intro hb
          obtain ⟨e1, e2, e3, e4, e5, e6, e7⟩ := hres.1 hb
          refine ⟨e1, by rw [e2, c2], by rw [e3, c3], ?_, ?_, e6, ?_⟩
          · intro v hv
            exact e4 v (c4 v hv)
          · intro d hdm
            rcases List.mem_cons.mp hdm with rfl | hdm2
            · exact ⟨e4 d c5, fun hh => h1 (hPV d hh)⟩
            · obtain ⟨f1, f2⟩ := e5 d hdm2
              refine ⟨f1, ?_⟩
              rw [← c3]; exact f2
          · intro v hv hvp
            apply e7 v hv
            rw [c3]; exact hvp
        · exact hres.2

theorem detectCycle_main (g : Graph) (name : String) :
    ∀ fuel p s, p ∈ nodesOf g → p ∉ s.visited → Coherent g s →
      chainList g (s.path ++ [p]) → remaining g s < fuel →
      ∀ b s2, detectCycle g name fuel p s = (b, s2) →
        (b = false →
          s2.errors = [] ∧ s2.recStack = s.recStack ∧ s2.path = s.path ∧
          (∀ v ∈ s.visited, v ∈ s2.visited) ∧ p ∈ s2.visited ∧
          (∀ v ∈ s2.visited, v ∈ nodesOf g) ∧
          (∀ v ∈ s2.visited, v ∉ s.path → Safe g v)) ∧
        (b = true →
          ∃ v l, IsCycleList g v l ∧ s2.errors = [cycleError name (v :: l ++ [v])]) := by
  intro fuel
  induction fuel with
  | zero =>
    intro p s _ _ _ _ hlt
    exact absurd hlt (Nat.not_lt_zero _)
  | succ fuel hI =>
    intro p s hpn hpv hco hch hlt b s2 hd
    obtain ⟨hE0, hRS, hCH, hPV, hVN, hSI⟩ := hco
    have hpr : p ∉ s.recStack := by rw [hRS]; exact fun hh => hpv (hPV p hh)
    have hsv : setAdd s.visited p = s.visited ++ [p] := by
      unfold setAdd; rw [if_neg hpv]
    have hsr : setAdd s.recStack p = s.recStack ++ [p] := by
      unfold setAdd; rw [if_neg hpr]
    simp only [detectCycle] at hd
    rcases hg : goDeps g (fun d s2 => detectCycle g name fuel d s2) name (graphGet g p)
        ⟨setAdd s.visited p, setAdd s.recStack p, s.path ++ [p], s.errors⟩ with ⟨b1, s3⟩
    rw [hg] at hd
    have hco1 : Coherent g ⟨setAdd s.visited p, setAdd s.recStack p,
        s.path ++ [p], s.errors⟩ := by
      refine ⟨hE0, ?_, ?_, ?_, ?_, ?_⟩
      · show setAdd s.recStack p = s.path ++ [p]
        rw [hsr, hRS]
      · exact hch
      · intro v hv
        show v ∈ setAdd s.visited p
        rw [hsv]
        rcases List.mem_append.mp hv with h1 | h1
        · exact List.mem_append.mpr (Or.inl (hPV v h1))
        · exact List.mem_append.mpr (Or.inr h1)
      · intro v hv
        rw [show (⟨setAdd s.visited p, setAdd s.recStack p, s.path ++ [p],
            s.errors⟩ : St).visited = setAdd s.visited p from rfl, hsv] at hv
        rcases List.mem_append.mp hv with h1 | h1
        · exact hVN v h1
        · rw [List.mem_singleton] at h1
          rw [h1]; exact hpn
      · intro v hv hvp
        rw [show (⟨setAdd s.visited p, setAdd s.recStack p, s.path ++ [p],
            s.errors⟩ : St).visited = setAdd s.visited p from rfl, hsv] at hv
        have hvnp : v ∉ s.path := fun hh => hvp (List.mem_append.mpr (Or.inl hh))
        rcases List.mem_append.mp hv with h1 | h1
        · exact hSI v h1 hvnp
        · rw [List.mem_singleton] at h1
          exact absurd (List.mem_append.mpr (Or.inr (by rw [h1]; simp))) hvp
    have hrem1 : remaining g (⟨setAdd s.visited p, setAdd s.recStack p,
        s.path ++ [p], s.errors⟩ : St) < fuel := by
      have hlt1 := remaining_push_lt g s p hpn hpv
        ⟨setAdd s.visited p, setAdd s.recStack p, s.path ++ [p], s.errors⟩ hsv
      omega
    have hQ := goDeps_main g name (fun d s2 => detectCycle g name fuel d s2) fuel hI
      (graphGet g p) p
      ⟨setAdd s.visited p, setAdd s.recStack p, s.path ++ [p], s.errors⟩ s.path rfl
      (fun d hd3 => hd3) hco1 hrem1 b1 s3 hg
    cases b1 with
    | true =>
      have hd2 : ((true : Bool), s3) = (b, s2) := hd
      rw [Prod.mk.injEq] at hd2
      obtain ⟨rfl, rfl⟩ := hd2
      constructor
      · intro hf; cases hf
      · intro _; exact hQ.2 rfl
    | false =>
      have hd2 : ((false : Bool),
          { s3 with recStack := s3.recStack.erase p, path := s3.path.dropLast }) =
          (b, s2) := hd
      rw [Prod.mk.injEq] at hd2
      obtain ⟨rfl, rfl⟩ := hd2
      obtain ⟨q1, q2, q3, q4, q5, q6, q7⟩ := hQ.1 rfl
      constructor
      swap
      · intro hf; cases hf
      intro _
      have hq2 : s3.recStack = s.recStack ++ [p] := by rw [q2]; exact hsr
      have hq3 : s3.path = s.path ++ [p] := q3
      refine ⟨q1, ?_, ?_, ?_, ?_, q6, ?_⟩
      · show s3.recStack.erase p = s.recStack
        rw [hq2, List.erase_append_right _ hpr, List.erase_cons_head, List.append_nil]
      · show s3.path.dropLast = s.path
        rw [hq3, List.dropLast_concat]
      · intro v hv
        exact q4 v (by rw [hsv]; exact List.mem_append.mpr (Or.inl hv))
      · exact q4 p (by rw [hsv]; exact List.mem_append.mpr (Or.inr (by simp)))
      · intro v hv hvp
        by_cases hvpeq : v = p
        · subst hvpeq
          apply safe_of_deps_safe
          intro d hdm
          obtain ⟨hd5, hd6⟩ := q5 d hdm
          exact q7 d hd5 hd6
        · apply q7 v hv
          show v ∉ s.path ++ [p]
          intro hh
          rcases List.mem_append.mp hh with h1 | h1
          · exact hvp h1
          · rw [List.mem_singleton] at h1
            exact hvpeq h1

end CondV
namespace CondV

theorem not_cyclic_nil : ¬ Cyclic ([] : Graph) := by
  rintro ⟨v, hv⟩
  rcases Relation.TransGen.head'_iff.mp hv with ⟨x, hvx, _⟩
  simp [isEdge, graphGet, List.lookup] at hvx

theorem rootsLoop_errorsMono (g : Graph) (name : String) (fuel : Nat) :
    ∀ ks s, ∃ t, (rootsLoop g name fuel ks s).errors = s.errors ++ t := by
  intro ks
  induction ks with
  | nil => intro s; exact ⟨[], by simp [rootsLoop]⟩
  | cons e rest ih =>
    intro s
    rcases e with ⟨k, vs⟩
    by_cases hk : k ∈ s.visited
    · obtain ⟨t, ht⟩ := ih s
      refine ⟨t, ?_⟩
      simp only [rootsLoop]
      rw [if_neg (fun hh => hh hk)]
      exact ht
    · rcases hdc : detectCycle g name fuel k s with ⟨b1, s1⟩
      obtain ⟨t1, ht1⟩ := errorsMono g name fuel k s
      rw [hdc] at ht1
      obtain ⟨t2, ht2⟩ := ih s1
      refine ⟨t1 ++ t2, ?_⟩
      simp only [rootsLoop]
      rw [if_pos hk, hdc]
      show (rootsLoop g name fuel rest s1).errors = s.errors ++ (t1 ++ t2)
      rw [ht2, show s1.errors = s.errors ++ t1 from ht1, List.append_assoc]

theorem rootsLoop_main (g : Graph) (name : String) (fuel : Nat)
    (hfuel : (nodesOf g).length < fuel) :
    ∀ ks s, (∀ e ∈ ks, e ∈ g) → Coherent g s → s.path = [] →
      ((rootsLoop g name fuel ks s).errors = [] ∧
       Coherent g (rootsLoop g name fuel ks s) ∧
       (rootsLoop g name fuel ks s).path = [] ∧
       (∀ e ∈ ks, e.1 ∈ (rootsLoop g name fuel ks s).visited) ∧
       (∀ v ∈ s.visited, v ∈ (rootsLoop g name fuel ks s).visited)) ∨
      (∃ v l, IsCycleList g v l ∧
        (rootsLoop g name fuel ks s).errors.head? =
          some (cycleError name (v :: l ++ [v]))) := by
  intro ks
  induction ks with
  | nil =>
    intro s hks hco hpath
    simp only [rootsLoop]
    left
    exact ⟨hco.1, hco, hpath, fun e he => absurd he (List.not_mem_nil e), fun v hv => hv⟩
  | cons e rest ih =>
    intro s hks hco hpath
    rcases e with ⟨k, vs⟩
    by_cases hk : k ∈ s.visited
    · have hroot : rootsLoop g name fuel ((k, vs) :: rest) s = rootsLoop g name fuel rest s := by
        simp only [rootsLoop]
        rw [if_neg (fun hh => hh hk)]
      rw [hroot]
      rcases ih s (fun e he => hks e (List.mem_cons_of_mem _ he)) hco hpath with
        ⟨m1, m2, m3, m4, m5⟩ | hcyc
      · left
        refine ⟨m1, m2, m3, ?_, m5⟩
        intro e he
        rcases List.mem_cons.mp he with rfl | he2
        · exact m5 k hk
        · exact m4 e he2
      · right; exact hcyc
    · rcases hdc : detectCycle g name fuel k s with ⟨b1, s1⟩
      have hroot : rootsLoop g name fuel ((k, vs) :: rest) s = rootsLoop g name fuel rest s1 := by
        simp only [rootsLoop]
        rw [if_pos hk, hdc]
      rw [hroot]
      obtain ⟨hE0, hRS, hCH, hPV, hVN, hSI⟩ := hco
      have hkn : k ∈ nodesOf g :=
        mem_nodesOf.mpr ⟨(k, vs), hks (k, vs) (List.mem_cons_self _ _), Or.inl rfl⟩
      have hch1 : chainList g (s.path ++ [k]) := by rw [hpath]; exact trivial
      have hrem : remaining g s < fuel := Nat.lt_of_le_of_lt (remaining_le_nodes g s) hfuel
      have hPmain := detectCycle_main g name fuel k s hkn hk
        ⟨hE0, hRS, hCH, hPV, hVN, hSI⟩ hch1 hrem b1 s1 hdc
      cases b1 with
      | false =>
        obtain ⟨c1, c2, c3, c4, c5, c6, c7⟩ := hPmain.1 rfl
        have hco1 : Coherent g s1 := by
          refine ⟨c1, ?_, ?_, ?_, c6, ?_⟩
          · rw [c2, c3, hRS]
          · rw [c3]; exact hCH
          · intro v hv
            rw [c3] at hv
            exact c4 v (hPV v hv)
          · intro v hv hvp
            rw [c3] at hvp
            exact c7 v hv hvp
        have hpath1 : s1.path = [] := by rw [c3]; exact hpath
        rcases ih s1 (fun e he => hks e (List.mem_cons_of_mem _ he)) hco1 hpath1 with
          ⟨m1, m2, m3, m4, m5⟩ | hcyc
        · left
          refine ⟨m1, m2, m3, ?_, ?_⟩
          · intro e he
            rcases List.mem_cons.mp he with rfl | he2
            · exact m5 k c5
            · exact m4 e he2
          · intro v hv
            exact m5 v (c4 v hv)
        · right; exact hcyc
      | true =>
        obtain ⟨v, l, hvl, herr⟩ := hPmain.2 rfl
        right
        refine ⟨v, l, hvl, ?_⟩
        obtain ⟨t, ht⟩ := rootsLoop_errorsMono g name fuel rest s1
        rw [ht, herr]
        rfl

end CondV
/-- C2: for every schema whose `dependentRequired` / array-form `dependencies`
declarations form a cyclic dependency graph, `validateDependencyGraph`
returns `valid := false` and its first recorded error message is the cycle
message for a genuine cycle `v -> ... -> v` of the graph (the DFS
terminates: the embedding is total, with fuel that the proof shows is never
exhausted); for every acyclic graph it returns `valid := true` with an
empty error list. -/
theorem validateDependencyGraph_c2 (schema : CondV.CSchema) (name : String) :
    (CondV.Cyclic (CondV.graphOf schema) →
      (CondV.validateDependencyGraph schema name).valid = false ∧
      ∃ v l, CondV.IsCycleList (CondV.graphOf schema) v l ∧
        (CondV.validateDependencyGraph schema name).errors.head? =
          some (CondV.cycleError name (v :: l ++ [v]))) ∧
    (¬ CondV.Cyclic (CondV.graphOf schema) →
      (CondV.validateDependencyGraph schema name).valid = true ∧
      (CondV.validateDependencyGraph schema name).errors = []) := by
  by_cases hnone : schema.dependencies.isNone ∧ schema.dependentRequired.isNone
  · have hg : CondV.graphOf schema = [] := by
      obtain ⟨h1, h2⟩ := hnone
      rw [Option.isNone_iff_eq_none] at h1 h2
      unfold CondV.graphOf
      rw [h1, h2]
      rfl
    have hval : CondV.validateDependencyGraph schema name = ⟨true, []⟩ := by
      unfold CondV.validateDependencyGraph
      rw [if_pos hnone]
    constructor
    · intro hcyc
      rw [hg] at hcyc
      exact absurd hcyc CondV.not_cyclic_nil
    · intro _
      rw [hval]
      exact ⟨rfl, rfl⟩
  · have hval : CondV.validateDependencyGraph schema name =
        ⟨(CondV.rootsLoop (CondV.graphOf schema) name
            ((CondV.nodesOf (CondV.graphOf schema)).length + 1)
            (CondV.graphOf schema) {}).errors.isEmpty,
         (CondV.rootsLoop (CondV.graphOf schema) name
            ((CondV.nodesOf (CondV.graphOf schema)).length + 1)
            (CondV.graphOf schema) {}).errors⟩ := by
      unfold CondV.validateDependencyGraph
      rw [if_neg hnone]
      rfl
    have hcoE : CondV.Coherent (CondV.graphOf schema) {} :=
      ⟨rfl, rfl, trivial, fun v hv => absurd hv (List.not_mem_nil v),
       fun v hv => absurd hv (List.not_mem_nil v),
       fun v hv _ => absurd hv (List.not_mem_nil v)⟩
    rcases CondV.rootsLoop_main (CondV.graphOf schema) name
        ((CondV.nodesOf (CondV.graphOf schema)).length + 1) (Nat.lt_succ_self _)
        (CondV.graphOf schema) {} (fun e he => he) hcoE rfl with
      ⟨m1, m2, m3, m4, _⟩ | ⟨v, l, hvl, hhead⟩
    · constructor
      · intro hcyc
        exfalso
        obtain ⟨v, hv⟩ := hcyc
        rcases Relation.TransGen.head'_iff.mp hv with ⟨x, hvx, _⟩
        obtain ⟨vs, hlk, _⟩ := CondV.edge_src _ v x hvx
        have hvvis := m4 (v, vs) (CondV.lookup_mem hlk)
        have hsafe : CondV.Safe (CondV.graphOf schema) v := by
          obtain ⟨_, _, _, _, _, hSI⟩ := m2
          exact hSI v hvvis (by rw [m3]; exact List.not_mem_nil v)
        exact hsafe ⟨v, Relation.ReflTransGen.refl, hv⟩
      · intro _
        rw [hval]
        refine ⟨?_, m1⟩
        show (CondV.rootsLoop (CondV.graphOf schema) name
            ((CondV.nodesOf (CondV.graphOf schema)).length + 1)
            (CondV.graphOf schema) {}).errors.isEmpty = true
        rw [m1]
        rfl
    · constructor
      · intro _
        rw [hval]
        refine ⟨?_, v, l, hvl, hhead⟩
        show (CondV.rootsLoop (CondV.graphOf schema) name
            ((CondV.nodesOf (CondV.graphOf schema)).length + 1)
            (CondV.graphOf schema) {}).errors.isEmpty = false
        rcases herr : (CondV.rootsLoop (CondV.graphOf schema) name
            ((CondV.nodesOf (CondV.graphOf schema)).length + 1)
            (CondV.graphOf schema) {}).errors with _ | ⟨a, t⟩
        · rw [herr] at hhead
          cases hhead
        · rfl
      · intro hnc
        exact absurd (CondV.cyclic_of_isCycleList _ v l hvl) hnc

/-- C2 witness: on `dependentRequired = [a ↦ [b], b ↦ [a]]` the validator is
invalid with exactly the error `a -> b -> a` (the cyclic hypothesis is
discharged by the explicit two-step cycle), and on the acyclic
`dependentRequired = [a ↦ [b]]` it is valid with no errors. -/
theorem validateDependencyGraph_c2_w :
    (CondV.validateDependencyGraph ⟨some [("a", ["b"]), ("b", ["a"])], none⟩ "Ex").valid
        = false ∧
    (CondV.validateDependencyGraph ⟨some [("a", ["b"]), ("b", ["a"])], none⟩ "Ex").errors
        = ["Circular dependency detected in schema \x27Ex\x27: a -> b -> a"] ∧
    (CondV.validateDependencyGraph ⟨some [("a", ["b"])], none⟩ "Ex").valid = true ∧
    (CondV.validateDependencyGraph ⟨some [("a", ["b"])], none⟩ "Ex").errors = [] := by
  have hcyc : CondV.Cyclic (CondV.graphOf ⟨some [("a", ["b"]), ("b", ["a"])], none⟩) := by
    have e1 : CondV.isEdge (CondV.graphOf ⟨some [("a", ["b"]), ("b", ["a"])], none⟩)
        "a" "b" := by
      show ("b" : String) ∈ CondV.graphGet (CondV.graphOf
        ⟨some [("a", ["b"]), ("b", ["a"])], none⟩) "a"
      decide
    have e2 : CondV.isEdge (CondV.graphOf ⟨some [("a", ["b"]), ("b", ["a"])], none⟩)
        "b" "a" := by
      show ("a" : String) ∈ CondV.graphGet (CondV.graphOf
        ⟨some [("a", ["b"]), ("b", ["a"])], none⟩) "b"
      decide
    exact ⟨"a", Relation.TransGen.head e1 (Relation.TransGen.single e2)⟩
  have hg2 : CondV.graphOf ⟨some [("a", ["b"])], none⟩ = [("a", ["b"])] := by decide
  have hnc : ¬ CondV.Cyclic (CondV.graphOf ⟨some [("a", ["b"])], none⟩) := by
    rw [hg2]
    apply CondV.not_cyclic_single _ "a" "b" (by decide)
    intro u w h
    have hw : w ∈ CondV.graphGet [("a", ["b"])] u := h
    by_cases hu : u = "a"
    · subst hu
      refine ⟨rfl, ?_⟩
      have : CondV.graphGet [("a", ["b"])] "a" = ["b"] := by decide
      rw [this] at hw
      simpa using hw
    · exfalso
      have : CondV.graphGet [("a", ["b"])] u = (List.lookup u [("a", ["b"])]).getD [] := rfl
      rw [this] at hw
      rw [List.lookup, show (u == "a") = false from beq_eq_false_iff_ne.mpr hu] at hw
      simp [List.lookup] at hw
  have h1 := (validateDependencyGraph_c2 ⟨some [("a", ["b"]), ("b", ["a"])], none⟩ "Ex").1 hcyc
  have h2 := (validateDependencyGraph_c2 ⟨some [("a", ["b"])], none⟩ "Ex").2 hnc
  exact ⟨h1.1, by decide, h2.1, h2.2⟩
